import Mathlib

/-!
# mpi6: packing a list of traces into a byte buffer and unpacking it again

A shallow embedding of `src/mpi6/main.cpp` (`pack_plista`, `unpack_plista`,
`make_test_data`) and the properties of the packing protocol proved on it,
followed by the struct datatype of `src/mpi4/main.cpp` and
`src/mpi5/main.cpp`.  All definitions come first, the lemmas and the claims
after them.

Conventions of the embedding

* A `char` / `unsigned char` cell of memory is a `Byte` (`Fin 256`).  A C array
  reached through a pointer (`char* nombre`, `Evento* eventos`, `char* evento`,
  `Traza* data`) is the list of the cells that were allocated for it; reading
  the array at an index outside that list has no defined behaviour.
* `unsigned int` and `unsigned char` fields are natural numbers; where a value
  is written to the buffer it is reduced modulo `2^32` resp. `2^8`
  explicitly.  `int incount` / `int outcount` is an `Int`, written as its
  two's complement 32 bit pattern.
* `std::vector<char> buf` is a `List Byte`.  The `int` quantities of the
  source (`pos`, `size`, the counts and the buffer sizes handed to MPI) are
  natural numbers that are checked against `INT_MAX` where the source computes
  or converts them: an overflow of `pos+size`, an `unsigned int` count that is
  negative as an `int`, and a buffer size that `(int)buf.size()` does not
  represent take the run out of the behaviour the source defines.
* `MPI_Pack_size`, `MPI_Pack` and `MPI_Unpack` belong to the MPI library, not
  to the repository; they are modelled after the Binary Writer and Binary
  Reader of the specification: exact sizes, fully packed, native byte order.
* The communicator argument carries no data and is dropped.
* The `new` expressions of `unpack_plista` ask for sizes read from the buffer;
  whether the runtime grants them is a parameter of the reader (`Allocator`).
  `buf.resize` in `pack_plista` asks for no more than the bytes of data the
  caller already holds, and is taken to get its memory.
* An outcome is `Except Fault _`: `Fault.thrown` is a C++ exception raised by a
  `new` expression of the source (a negative count, or a request the runtime
  does not grant; the runtime is a parameter of the reader),
  `Fault.undefined` marks a run that has reached a point from which the source
  defines no behaviour (an array read outside its cells, an `int` overflow,
  or an erroneous MPI call; the source tests no return code and has no bounds
  check of its own).  Nothing is said about what such a run does next: it is
  not assumed to stop.
-/

namespace Mpi6

set_option autoImplicit false

/-- One cell of a `char` array or of the wire buffer. -/
abbrev Byte := Fin 256

/-- The struct `Evento` (main.cpp 8-11): `evento` are the cells of the array
the pointer refers to, `cant` is the `unsigned char` count. -/
structure Evento where
  evento : List Byte
  cant : Nat
deriving DecidableEq, Repr

/-- The struct `Traza` (main.cpp 13-20). -/
structure Traza where
  nombre : List Byte
  eventos : List Evento
  cantEventos : Nat
  revisado : Bool
  idTraza : Nat
deriving DecidableEq, Repr

/-- How a run can leave the normal path: by an exception a `new` expression of
the source throws, or by reaching a point from which the source defines no
behaviour. -/
inductive Fault
  | thrown
  | undefined
deriving DecidableEq, Repr

/-- The four MPI datatypes the program packs. -/
inductive MPI_Datatype
  | MPI_INT
  | MPI_UNSIGNED
  | MPI_UNSIGNED_CHAR
  | MPI_CHAR
deriving DecidableEq, Repr

/-- Modelled from the spec: the packed size of one value of a primitive wire
type (MPI is a library, not part of the repository): 4 bytes for the signed
and the unsigned 32 bit integer, 1 byte for `unsigned char` and `char`. -/
def wireSize : MPI_Datatype → Nat
  | .MPI_INT => 4
  | .MPI_UNSIGNED => 4
  | .MPI_UNSIGNED_CHAR => 1
  | .MPI_CHAR => 1

/-- The low byte of a natural number. -/
def byteOf (n : Nat) : Byte := ⟨n % 256, Nat.mod_lt n (by decide)⟩

/-- Modelled from the spec: the four bytes of an unsigned 32 bit integer in the
native byte order of the transport, taken to be little-endian. -/
def le32 (n : Nat) : List Byte :=
  [byteOf n, byteOf (n / 256), byteOf (n / 65536), byteOf (n / 16777216)]

/-- The four bytes of an `int`: the two's complement pattern of the value. -/
def encInt (i : Int) : List Byte := le32 (i % 4294967296).toNat

/-- The value of a little-endian byte sequence. -/
def leValue : List Byte → Nat
  | [] => 0
  | b :: bs => b.val + 256 * leValue bs

/-- The `int` denoted by four bytes in two's complement. -/
def decInt (bs : List Byte) : Int :=
  if leValue bs < 2147483648 then (leValue bs : Int) else (leValue bs : Int) - 4294967296

/-- The byte `pack_plista` writes for a `bool` (main.cpp 45):
`unsigned char revisado = data[t].revisado`. -/
def boolByte (b : Bool) : Byte := if b then 1 else 0

/-! ## The writer -/

/-- The fields written by `pack_plista`, used to label the steps of a run. -/
inductive Field
  | incount
  | cantEventos
  | idTraza
  | revisado
  | nombre
  | cant
  | evento
deriving DecidableEq, Repr

/-- One step of a run of `pack_plista`, recorded as it happens:
`resized pos size old` is a `buf.resize(pos+size)` on a buffer of `old` bytes,
`packed f pos n outsize` is an `MPI_Pack` of `n` bytes for field `f` at cursor
`pos` into a buffer of `outsize` bytes. -/
inductive Step
  | resized (pos size old : Nat)
  | packed (f : Field) (pos n outsize : Nat)
deriving DecidableEq, Repr

/-- The state of `pack_plista`: the vector `buf`, the cursor `pos`, and the
steps taken so far (a record of the run; nothing reads it). -/
structure Packer where
  buf : List Byte
  pos : Nat
  steps : List Step
deriving DecidableEq, Repr

/-- The call `std::vector<char>::resize(n)`: cut to `n` cells or fill up with
zero cells. -/
def vresize (v : List Byte) (n : Nat) : List Byte :=
  v.take n ++ List.replicate (n - v.length) 0

/-- The call `std::vector<char>::clear()`. -/
def vclear (_v : List Byte) : List Byte := []

/-- The largest value of an `int`. -/
def INT_MAX : Nat := 2147483647

/-- The conversion `(int)buf.size()` of a vector size to the `int` parameter
of `MPI_Pack` and `MPI_Unpack`: the low 32 bits, read as two's complement. -/
def sizeAsInt (n : Nat) : Int :=
  if n % 4294967296 < 2147483648 then ((n % 4294967296 : Nat) : Int)
  else ((n % 4294967296 : Nat) : Int) - 4294967296

/-- Modelled from the spec: `MPI_Pack_size(incount, datatype, comm, &size)` (a
library call) gives the exact packed size of `incount` values of a datatype.
Both `incount` and `size` are `int`: a count whose packed size is above
`INT_MAX` (in particular an `unsigned int` count that arrives as a negative
`int`) makes the call erroneous, with no defined continuation. -/
def MPI_Pack_size (incount : Nat) (ty : MPI_Datatype) : Except Fault Nat :=
  if INT_MAX < incount * wireSize ty then .error .undefined
  else .ok (incount * wireSize ty)

/-- The statement pair `MPI_Pack_size(incount, datatype, comm, &size);
buf.resize(pos+size);`.  The sum `pos+size` is computed in `int`; its
overflow has no defined behaviour. -/
def grow (incount : Nat) (ty : MPI_Datatype) (s : Packer) : Except Fault Packer :=
  match MPI_Pack_size incount ty with
  | .error err => .error err
  | .ok size =>
    if INT_MAX < s.pos + size then .error .undefined
    else .ok
      { buf := vresize s.buf (s.pos + size)
        pos := s.pos
        steps := s.steps ++ [Step.resized s.pos size s.buf.length] }

/-- Modelled from the spec: `MPI_Pack(inbuf, incount, datatype, buf.data(),
buf.size(), &pos, comm)` (a library call).  It reads `incount` values from the
cells `inbuf`, writes their bytes at the cursor and advances the cursor by the
written size.  A count whose packed size is above `INT_MAX` (in particular an
`unsigned int` count that arrives as a negative `int`), reading more cells
than `inbuf` has, or writing past the size it is given, which is
`(int)buf.size()`, has no defined continuation. -/
def MPI_Pack (f : Field) (inbuf : List Byte) (incount : Nat) (ty : MPI_Datatype)
    (s : Packer) : Except Fault Packer :=
  if INT_MAX < incount * wireSize ty then .error .undefined
  else if inbuf.length < incount * wireSize ty then .error .undefined
  else if sizeAsInt s.buf.length < ((s.pos + incount * wireSize ty : Nat) : Int) then
    .error .undefined
  else .ok
    { buf := s.buf.take s.pos ++ inbuf.take (incount * wireSize ty)
               ++ s.buf.drop (s.pos + incount * wireSize ty)
      pos := s.pos + incount * wireSize ty
      steps := s.steps ++ [Step.packed f s.pos (incount * wireSize ty) s.buf.length] }

/-- The inner loop of `pack_plista` (main.cpp 58-71): `k` iterations remain and
`es` are the cells of `data[t].eventos` from index `e` on. -/
def packEventos : Nat → List Evento → Packer → Except Fault Packer
  | 0, _, s => .ok s
  | _ + 1, [], _ => .error .undefined
  | k + 1, e :: es, s =>
    match grow 1 .MPI_UNSIGNED_CHAR s with
    | .error err => .error err
    | .ok g1 =>
      match MPI_Pack .cant [byteOf e.cant] 1 .MPI_UNSIGNED_CHAR g1 with
      | .error err => .error err
      | .ok s1 =>
        match grow e.cant .MPI_CHAR s1 with
        | .error err => .error err
        | .ok g2 =>
          match MPI_Pack .evento e.evento e.cant .MPI_CHAR g2 with
          | .error err => .error err
          | .ok s2 => packEventos k es s2

/-- The body of the outer loop of `pack_plista` (main.cpp 35-71) for one
trace.  The `unsigned int cantEventos` is the `int` count of `MPI_Pack_size`
and `MPI_Pack` for the name. -/
def packTraza (t : Traza) (s : Packer) : Except Fault Packer :=
  match grow 2 .MPI_UNSIGNED s with
  | .error err => .error err
  | .ok g1 =>
    match MPI_Pack .cantEventos (le32 t.cantEventos) 1 .MPI_UNSIGNED g1 with
    | .error err => .error err
    | .ok s1 =>
      match MPI_Pack .idTraza (le32 t.idTraza) 1 .MPI_UNSIGNED s1 with
      | .error err => .error err
      | .ok s2 =>
        match grow 1 .MPI_UNSIGNED_CHAR s2 with
        | .error err => .error err
        | .ok g3 =>
          match MPI_Pack .revisado [boolByte t.revisado] 1 .MPI_UNSIGNED_CHAR g3 with
          | .error err => .error err
          | .ok s3 =>
            match grow t.cantEventos .MPI_CHAR s3 with
            | .error err => .error err
            | .ok g4 =>
              match MPI_Pack .nombre t.nombre t.cantEventos .MPI_CHAR g4 with
              | .error err => .error err
              | .ok s4 => packEventos t.cantEventos t.eventos s4

/-- The outer loop of `pack_plista` (main.cpp 33-72): `k` iterations remain and
`ts` are the cells of `data` from index `t` on. -/
def packTrazas : Nat → List Traza → Packer → Except Fault Packer
  | 0, _, s => .ok s
  | _ + 1, [], _ => .error .undefined
  | k + 1, t :: ts, s =>
    match packTraza t s with
    | .error err => .error err
    | .ok s1 => packTrazas k ts s1

/-- The function `pack_plista` up to, not including, its last statement
`buf.resize(pos)` (main.cpp 25-72).  `buf0` is what the vector held on
entry. -/
def packRun (incount : Int) (data : List Traza) (buf0 : List Byte) : Except Fault Packer :=
  match grow 1 .MPI_INT { buf := vclear buf0, pos := 0, steps := [] } with
  | .error err => .error err
  | .ok g =>
    match MPI_Pack .incount (encInt incount) 1 .MPI_INT g with
    | .error err => .error err
    | .ok s => packTrazas incount.toNat data s

/-- The function `pack_plista` (main.cpp 22-74): the contents of `buf` on
return. -/
def pack_plista (incount : Int) (data : List Traza) (buf0 : List Byte) :
    Except Fault (List Byte) :=
  match packRun incount data buf0 with
  | .error err => .error err
  | .ok s => .ok (vresize s.buf s.pos)

/-! ## The reader -/

/-- The four `new` expressions of `unpack_plista`: `new Traza[outcount]`
(main.cpp 85), `new char[cantEventos]` (103), `new Evento[cantEventos]` (107)
and `new char[cant]` (115). -/
inductive Site
  | trazas
  | nombre
  | eventos
  | evento
deriving DecidableEq, Repr

/-- What the runtime does with the allocations is not in the source and is a
parameter: `alloc site n` tells whether the request of `n` elements at a
`new` expression is granted. -/
abbrev Allocator := Site → Nat → Bool

/-- The expression `new T[n]`: it throws `std::bad_alloc` when the runtime does
not grant the request.  A request for no element needs no memory and is taken
to succeed. -/
def newArray (alloc : Allocator) (site : Site) (n : Nat) : Except Fault Unit :=
  if n = 0 ∨ alloc site n = true then .ok () else .error .thrown

/-- Modelled from the spec: `MPI_Unpack(buf.data(), buf.size(), &pos, outbuf,
outcount, datatype, comm)` (a library call).  It yields the bytes of
`outcount` values at the cursor and the advanced cursor.  A count whose packed
size is above `INT_MAX` (in particular an `unsigned int` count that arrives as
a negative `int`), or asking for more than the size it is given, which is
`(int)buf.size()`, holds from the cursor on, is an erroneous call; the source
tests no return code, and what follows such a call is not defined by it. -/
def MPI_Unpack (inbuf : List Byte) (position outcount : Nat) (ty : MPI_Datatype) :
    Except Fault (List Byte × Nat) :=
  if INT_MAX < outcount * wireSize ty then .error .undefined
  else if sizeAsInt inbuf.length < ((position + outcount * wireSize ty : Nat) : Int) then
    .error .undefined
  else .ok ((inbuf.drop position).take (outcount * wireSize ty),
            position + outcount * wireSize ty)

/-- The inner loop of `unpack_plista` (main.cpp 108-119) with `k` iterations to
go: the events read and the cursor after them. -/
def unpackEventos (alloc : Allocator) :
    Nat → List Byte → Nat → Except Fault (List Evento × Nat)
  | 0, _, pos => .ok ([], pos)
  | k + 1, buf, pos =>
    match MPI_Unpack buf pos 1 .MPI_UNSIGNED_CHAR with
    | .error err => .error err
    | .ok (c, p1) =>
      match newArray alloc .evento (leValue c) with
      | .error err => .error err
      | .ok _ =>
        match MPI_Unpack buf p1 (leValue c) .MPI_CHAR with
        | .error err => .error err
        | .ok (ev, p2) =>
          match unpackEventos alloc k buf p2 with
          | .error err => .error err
          | .ok (es, p3) => .ok ({ evento := ev, cant := leValue c } :: es, p3)

/-- The body of the outer loop of `unpack_plista` (main.cpp 88-119) for one
trace.  The `unsigned int cantEventos` just read is the `int` count of the
`MPI_Unpack` for the name. -/
def unpackTraza (alloc : Allocator) (buf : List Byte) (pos : Nat) :
    Except Fault (Traza × Nat) :=
  match MPI_Unpack buf pos 1 .MPI_UNSIGNED with
  | .error err => .error err
  | .ok (ce, p1) =>
    match MPI_Unpack buf p1 1 .MPI_UNSIGNED with
    | .error err => .error err
    | .ok (id, p2) =>
      match MPI_Unpack buf p2 1 .MPI_UNSIGNED_CHAR with
      | .error err => .error err
      | .ok (rv, p3) =>
        match newArray alloc .nombre (leValue ce) with
        | .error err => .error err
        | .ok _ =>
          match MPI_Unpack buf p3 (leValue ce) .MPI_CHAR with
          | .error err => .error err
          | .ok (nm, p4) =>
            match newArray alloc .eventos (leValue ce) with
            | .error err => .error err
            | .ok _ =>
              match unpackEventos alloc (leValue ce) buf p4 with
              | .error err => .error err
              | .ok (es, p5) =>
                .ok ({ nombre := nm, eventos := es, cantEventos := leValue ce,
                       revisado := decide (leValue rv ≠ 0), idTraza := leValue id }, p5)

/-- The outer loop of `unpack_plista` (main.cpp 86-120) with `k` iterations to
go. -/
def unpackTrazas (alloc : Allocator) :
    Nat → List Byte → Nat → Except Fault (List Traza × Nat)
  | 0, _, pos => .ok ([], pos)
  | k + 1, buf, pos =>
    match unpackTraza alloc buf pos with
    | .error err => .error err
    | .ok (t, p1) =>
      match unpackTrazas alloc k buf p1 with
      | .error err => .error err
      | .ok (ts, p2) => .ok (t :: ts, p2)

/-- The function `unpack_plista` together with the final value of its local
cursor `pos`.  `new Traza[outcount]` throws `std::bad_array_new_length` when
`outcount` is negative and `std::bad_alloc` when the request is not
granted. -/
def unpackRun (alloc : Allocator) (buf : List Byte) :
    Except Fault (Int × List Traza × Nat) :=
  match MPI_Unpack buf 0 1 .MPI_INT with
  | .error err => .error err
  | .ok (c, p1) =>
    if decInt c < 0 then .error .thrown
    else
      match newArray alloc .trazas (decInt c).toNat with
      | .error err => .error err
      | .ok _ =>
        match unpackTrazas alloc (decInt c).toNat buf p1 with
        | .error err => .error err
        | .ok (data, p2) => .ok (decInt c, data, p2)

/-- The function `unpack_plista` (main.cpp 76-121): `outcount` and `data` on
return. -/
def unpack_plista (alloc : Allocator) (buf : List Byte) : Except Fault (Int × List Traza) :=
  match unpackRun alloc buf with
  | .error err => .error err
  | .ok (outcount, data, _) => .ok (outcount, data)

/-- The runtime that grants every request. -/
def grantAll : Allocator := fun _ _ => true

/-- The function `make_test_data` (main.cpp 143-179): `count` and `data`. -/
def make_test_data : Int × List Traza :=
  (2,
   [ { nombre := [0, 1, 3]
       eventos := [ { evento := [97, 98, 99, 100], cant := 4 },
                    { evento := [101, 102, 103], cant := 3 },
                    { evento := [104, 105], cant := 2 } ]
       cantEventos := 3
       revisado := true
       idTraza := 0 },
     { nombre := [4]
       eventos := [ { evento := [106], cant := 1 } ]
       cantEventos := 1
       revisado := false
       idTraza := 1 } ])

/-! ## The wire format and the conditions under which the source is defined -/

deriving instance DecidableEq for Except

/-- The bytes of one event on the wire: the byte `cant`, then the first `cant`
cells of the content. -/
def eventoWire (e : Evento) : List Byte :=
  byteOf e.cant :: e.evento.take e.cant

/-- The bytes of one trace on the wire: `cantEventos`, `idTraza`, one byte for
`revisado`, the first `cantEventos` cells of the name, then the first
`cantEventos` events in order. -/
def trazaWire (t : Traza) : List Byte :=
  le32 t.cantEventos ++ le32 t.idTraza ++ [boolByte t.revisado]
    ++ t.nombre.take t.cantEventos
    ++ (t.eventos.take t.cantEventos).flatMap eventoWire

/-- The bytes of a collection on the wire: the count, then the first `incount`
traces in order. -/
def wireFormat (incount : Int) (data : List Traza) : List Byte :=
  encInt incount ++ (data.take incount.toNat).flatMap trazaWire

/-- The first `k` events exist and each has at least `cant` content cells. -/
def ReadableEventos (k : Nat) (es : List Evento) : Prop :=
  k ≤ es.length ∧ ∀ e ∈ es.take k, e.cant ≤ e.evento.length

/-- The name and the event array of a trace have at least `cantEventos` cells,
and the events read have their content. -/
def ReadableTraza (t : Traza) : Prop :=
  t.cantEventos ≤ t.nombre.length ∧ ReadableEventos t.cantEventos t.eventos

/-- Every array `pack_plista` reads holds the cells the count fields announce:
the condition under which no read of the source leaves its array. -/
def Readable (incount : Int) (data : List Traza) : Prop :=
  incount.toNat ≤ data.length ∧ ∀ t ∈ data.take incount.toNat, ReadableTraza t

instance (k : Nat) (es : List Evento) : Decidable (ReadableEventos k es) := by
  unfold ReadableEventos; infer_instance

instance (t : Traza) : Decidable (ReadableTraza t) := by
  unfold ReadableTraza; infer_instance

instance (incount : Int) (data : List Traza) : Decidable (Readable incount data) := by
  unfold Readable; infer_instance

/-- The wire bytes of the collection are at most `INT_MAX`: the condition under
which the `int` cursor `pos` and the sums `pos+size` of `pack_plista` do not
overflow. -/
def Fits (incount : Int) (data : List Traza) : Prop :=
  (wireFormat incount data).length ≤ INT_MAX

instance (incount : Int) (data : List Traza) : Decidable (Fits incount data) := by
  unfold Fits; infer_instance

/-- The number of bytes the packing steps of a run have written. -/
def written : List Step → Nat
  | [] => 0
  | .resized _ _ _ :: rest => written rest
  | .packed _ _ n _ :: rest => n + written rest

/-- Every write of a run that starts with the cursor at `c` directly follows
its own growth: the buffer ends at the cursor, grows by exactly the size of
the one value, the value is written at the cursor, and the buffer then ends
at the advanced cursor. -/
def stepsExact : Nat → List Step → Bool
  | _, [] => true
  | c, .resized p size old :: .packed _ q n out :: rest =>
    p == c && old == c && q == c && n == size && out == c + n && stepsExact (c + n) rest
  | _, _ => false

/-- The same, except that `cantEventos` and `idTraza` share one growth of 8
bytes: `cantEventos` is written at the cursor into a buffer that ends 8 bytes
after it, `idTraza` 4 bytes further on into the same buffer. -/
def stepsGrouped : Nat → List Step → Bool
  | _, [] => true
  | c, .resized p size old :: .packed f q n out :: rest =>
    if f = .cantEventos then
      match rest with
      | .packed .idTraza q2 n2 out2 :: rest2 =>
        p == c && old == c && size == 8 && q == c && n == 4 && out == c + 8
          && q2 == c + 4 && n2 == 4 && out2 == c + 8 && stepsGrouped (c + 8) rest2
      | _ => false
    else p == c && old == c && q == c && n == size && out == c + n
      && stepsGrouped (c + n) rest
  | _, _ => false

/-- The writer is tight: the buffer ends at the cursor, the cursor is the
number of bytes written, and the steps so far are grouped growth by growth. -/
def Tight (s : Packer) : Prop :=
  s.buf.length = s.pos ∧ s.pos = written s.steps ∧ stepsGrouped 0 s.steps = true

/-! ## The wire format as a description of buffers -/

/-- One trace record as the wire format lays it out. -/
structure WireTrace where
  eventCount : Nat
  traceId : Nat
  reviewed : Byte
  name : List Byte
  events : List (List Byte)
deriving DecidableEq, Repr

/-- An event on the wire: its length byte, then its content. -/
def eventLayout (c : List Byte) : List Byte := byteOf c.length :: c

/-- A trace record on the wire. -/
def traceLayout (w : WireTrace) : List Byte :=
  le32 w.eventCount ++ le32 w.traceId ++ [w.reviewed] ++ w.name
    ++ w.events.flatMap eventLayout

/-- A buffer laid out as the wire format says: the count, then the records. -/
def layout (ws : List WireTrace) : List Byte :=
  encInt ws.length ++ ws.flatMap traceLayout

/-- The record fits its own header fields: the counts are 32 bit values, there
are `eventCount` name bytes and `eventCount` events, and the length of every
event fits its length byte. -/
def WireTrace.WellFormed (w : WireTrace) : Prop :=
  w.eventCount < 4294967296 ∧ w.traceId < 4294967296 ∧ w.name.length = w.eventCount
    ∧ w.events.length = w.eventCount ∧ ∀ c ∈ w.events, c.length < 256

/-- The event the decoder is to produce for a content. -/
def eventOf (c : List Byte) : Evento := { evento := c, cant := c.length }

/-- The trace the decoder is to produce for a record. -/
def WireTrace.decoded (w : WireTrace) : Traza :=
  { nombre := w.name
    eventos := w.events.map eventOf
    cantEventos := w.eventCount
    revisado := decide (w.reviewed ≠ 0)
    idTraza := w.traceId }

/-! ## Invariants of the data model -/

/-- The data-model invariant of an event: exactly `cant` content bytes, `cant`
being an `unsigned char`. -/
def Evento.Sized (e : Evento) : Prop := e.evento.length = e.cant ∧ e.cant ≤ 255

/-- The data-model invariant of a trace: exactly `cantEventos` name bytes,
exactly `cantEventos` events, every event with its invariant. -/
def Traza.Sized (t : Traza) : Prop :=
  t.nombre.length = t.cantEventos ∧ t.eventos.length = t.cantEventos
    ∧ ∀ e ∈ t.eventos, e.Sized

/-- The data-model invariants of a collection: the count is the number of
traces, and every trace and event has the sizes its count fields say. -/
def Invariants (incount : Int) (data : List Traza) : Prop :=
  0 ≤ incount ∧ (data.length : Int) = incount ∧ ∀ t ∈ data, t.Sized

/-- The integer fields hold values of their C types (`int`, `unsigned int`). -/
def Typed (incount : Int) (data : List Traza) : Prop :=
  incount < 2147483648 ∧ ∀ t ∈ data, t.cantEventos < 4294967296 ∧ t.idTraza < 4294967296

instance (e : Evento) : Decidable e.Sized := by
  unfold Evento.Sized; infer_instance

instance (t : Traza) : Decidable t.Sized := by
  unfold Traza.Sized; infer_instance

instance (incount : Int) (data : List Traza) : Decidable (Invariants incount data) := by
  unfold Invariants; infer_instance

instance (incount : Int) (data : List Traza) : Decidable (Typed incount data) := by
  unfold Typed; infer_instance

instance (w : WireTrace) : Decidable w.WellFormed := by
  unfold WireTrace.WellFormed; infer_instance

/-- The wire record of a trace. -/
def Traza.record (t : Traza) : WireTrace :=
  { eventCount := t.cantEventos
    traceId := t.idTraza
    reviewed := boolByte t.revisado
    name := t.nombre
    events := t.eventos.map Evento.evento }

/-- The runtime grants every `new` expression of a decode of the records `ws`:
the array of traces and, for each record, its name, its array of events and
the content of each event. -/
def Granted (alloc : Allocator) (ws : List WireTrace) : Prop :=
  newArray alloc .trazas ws.length = .ok ()
    ∧ ∀ w ∈ ws, newArray alloc .nombre w.eventCount = .ok ()
        ∧ newArray alloc .eventos w.eventCount = .ok ()
        ∧ ∀ c ∈ w.events, newArray alloc .evento c.length = .ok ()

instance (alloc : Allocator) (ws : List WireTrace) : Decidable (Granted alloc ws) := by
  unfold Granted; infer_instance

/-- A number of events, `2^30`, with which one trace has more than `INT_MAX`
wire bytes. -/
def manyEvents : Nat := 1073741824

/-- A trace that satisfies the data-model invariants and has `2^31 + 9` wire
bytes: `manyEvents` name bytes and `manyEvents` events without content. -/
def longTrace : Traza :=
  { nombre := List.replicate manyEvents 0
    eventos := List.replicate manyEvents { evento := [], cant := 0 }
    cantEventos := manyEvents
    revisado := false
    idTraza := 0 }

/-- The wire record of `longTrace`. -/
def longRecord : WireTrace :=
  { eventCount := manyEvents
    traceId := 0
    reviewed := 0
    name := List.replicate manyEvents 0
    events := List.replicate manyEvents [] }

/-- The event with its content cut to the first `cant` cells. -/
def Evento.clip (e : Evento) : Evento := { e with evento := e.evento.take e.cant }

/-- The trace with the content of every event cut to its `cant`. -/
def Traza.clip (t : Traza) : Traza := { t with eventos := t.eventos.map Evento.clip }

/-- The record with its reviewed byte replaced by the byte the encoder writes
for the flag it decodes to: 0 stays 0, every other value becomes 1. -/
def WireTrace.canonical (w : WireTrace) : WireTrace :=
  { w with reviewed := boolByte (decide (w.reviewed ≠ 0)) }

/-- How a re-encoded byte relates to the byte decoded: the same, or a 1 in the
place of a value that is neither 0 nor 1. -/
def SameOrOne (x y : Byte) : Prop := x = y ∨ (x = 1 ∧ y ≠ 0 ∧ y ≠ 1)

end Mpi6

/-! # mpi4 and mpi5: the struct datatype `person_type` -/

namespace Mpi4

set_option autoImplicit false

/-- The C types of the members of `person_t`. -/
inductive CType
  | int
  | double
deriving DecidableEq, Repr

/-- The operator `sizeof`: 4 bytes for an `int`, 8 for a `double`. -/
def sizeof : CType → Nat
  | .int => 4
  | .double => 8

/-- The alignment of a C type.  That of `double` differs between platforms and
is a parameter; an `int` is aligned to 4. -/
def alignof (alignDouble : Nat) : CType → Nat
  | .int => 4
  | .double => alignDouble

/-- The least multiple of `a` that is at least `n`. -/
def alignUp (n a : Nat) : Nat := (n + a - 1) / a * a

/-- The struct `person_t` (mpi4/main.cpp 42-47, the same in mpi5): the type and
the number of elements of `age`, `height` and `name`. -/
def person_t : List (CType × Nat) := [(.int, 1), (.double, 1), (.double, 10)]

/-- The byte offsets the C layout rule gives the members that follow offset
`cur`: each member starts at the next multiple of its alignment. -/
def memberOffsets (alignDouble : Nat) : List (CType × Nat) → Nat → List Nat
  | [], _ => []
  | (ty, n) :: rest, cur =>
    alignUp cur (alignof alignDouble ty)
      :: memberOffsets alignDouble rest (alignUp cur (alignof alignDouble ty) + n * sizeof ty)

/-- The byte offsets of `age`, `height` and `name` in `person_t`. -/
def offsetof (alignDouble : Nat) : List Nat := memberOffsets alignDouble person_t 0

/-- The array `lengths` of `main` (main.cpp 64). -/
def lengths : List Nat := [1, 1, 10]

/-- The array `displacements` of `main` (main.cpp 65). -/
def displacements : List Nat := [0, sizeof .int, sizeof .int + sizeof .double]

/-- The array `types` of `main` (main.cpp 66): `MPI_INT`, `MPI_DOUBLE`,
`MPI_DOUBLE`. -/
def types : List CType := [.int, .double, .double]

/-- Modelled from the spec: `MPI_Type_create_struct` (a library call) describes
a record by blocks; block `i` is `lengths[i]` values of `types[i]` at byte
`displacements[i]`, here as the displacement and the number of bytes. -/
def MPI_Type_create_struct (lens disps : List Nat) (tys : List CType) : List (Nat × Nat) :=
  List.zipWith (fun d lt => (d, lt.1 * sizeof lt.2)) disps (List.zip lens tys)

/-- The datatype `person_type` of `main` (main.cpp 67). -/
def person_type : List (Nat × Nat) := MPI_Type_create_struct lengths displacements types

/-- Modelled from the spec: the extent of the datatype, the stride between
consecutive elements of it in a buffer: the end of its last block, rounded up
to the alignment of `double`. -/
def extent (alignDouble : Nat) : Nat :=
  alignUp ((person_type.map fun b => b.1 + b.2).foldl max 0) alignDouble

/-- The byte at offset `i` of an element lies in a block of `person_type`. -/
def covered (i : Nat) : Bool := person_type.any fun b => decide (b.1 ≤ i ∧ i < b.1 + b.2)

/-- The byte at offset `i` of a `person_t` belongs to a member (with `double`
aligned to 8). -/
def inMember (i : Nat) : Bool :=
  (List.zip (offsetof 8) person_t).any fun m =>
    decide (m.1 ≤ i ∧ i < m.1 + m.2.2 * sizeof m.2.1)

/-- Modelled from the spec: `MPI_Send(&buffer, count, person_type, ..)` matched
by `MPI_Recv(&received, count, person_type, ..)` (library calls) on one
platform: the bytes of `count` elements that the blocks of the datatype cover
are copied from `sent` to the same offsets of the receive buffer; every other
byte of the receive buffer keeps what it held. -/
def transfer (alignDouble count : Nat) (sent received : List (Fin 256)) : List (Fin 256) :=
  (List.range received.length).map fun i =>
    if i < count * extent alignDouble ∧ covered (i % extent alignDouble) = true
    then sent.getD i 0 else received.getD i 0

/-- The bytes of member `age` of the person at index `k` of an array (`double`
aligned to 8: a person takes 96 bytes). -/
def age (mem : List (Fin 256)) (k : Nat) : List (Fin 256) := (mem.drop (96 * k)).take 4

/-- The bytes of member `height`. -/
def height (mem : List (Fin 256)) (k : Nat) : List (Fin 256) :=
  (mem.drop (96 * k + 8)).take 8

/-- The bytes of `name[j]`. -/
def name (mem : List (Fin 256)) (k j : Nat) : List (Fin 256) :=
  (mem.drop (96 * k + 16 + 8 * j)).take 8

/-- The variable `buffer` of the sender of mpi4 (main.cpp 79-84) as 96 bytes:
`age = 20`, `height = 1.83`, `name[0] = 10.0`, `name[5] = 10.5`,
`name[9] = 10.9` as little-endian IEEE doubles; the padding and the entries of
`name` that are not assigned are taken to be 0. -/
def buffer : List (Fin 256) :=
  [20, 0, 0, 0] ++ [0, 0, 0, 0] ++ [72, 225, 122, 20, 174, 71, 253, 63]
    ++ [0, 0, 0, 0, 0, 0, 36, 64] ++ List.replicate 32 0
    ++ [0, 0, 0, 0, 0, 0, 37, 64] ++ List.replicate 24 0
    ++ [205, 204, 204, 204, 204, 204, 37, 64]

/-- The variable `received` of the receiver of mpi4 (main.cpp 92) before the
call, taken to be filled with 0. -/
def received : List (Fin 256) := List.replicate 96 0

/-- The array `buffer` of the sender of mpi5 (main.cpp 79-87) as 192 bytes:
`buffer[0]` has `age = 21`, `height = 1.93`, `name[0] = 20.0`,
`name[5] = 20.5`, `name[9] = 20.9`; `buffer[1]` is the person of mpi4. -/
def buffer5 : List (Fin 256) :=
  [21, 0, 0, 0] ++ [0, 0, 0, 0] ++ [225, 122, 20, 174, 71, 225, 254, 63]
    ++ [0, 0, 0, 0, 0, 0, 52, 64] ++ List.replicate 32 0
    ++ [0, 0, 0, 0, 0, 128, 52, 64] ++ List.replicate 24 0
    ++ [102, 102, 102, 102, 102, 230, 52, 64]
    ++ buffer

/-- The array `received` of the receiver of mpi5 (main.cpp 95) before the call,
taken to be filled with 0. -/
def received5 : List (Fin 256) := List.replicate 192 0

end Mpi4

/-! # mpi6: lemmas and claims -/

namespace Mpi6

set_option autoImplicit false

/-! ## Lemmas on the writer -/

theorem sizeAsInt_eq (n : Nat) (h : n ≤ INT_MAX) : sizeAsInt n = (n : Int) := by
  unfold INT_MAX at h
  unfold sizeAsInt
  have h1 : n % 4294967296 = n := Nat.mod_eq_of_lt (by omega)
  rw [h1, if_pos (by omega)]

theorem sizeAsInt_le (n : Nat) : sizeAsInt n ≤ (n : Int) ∧ sizeAsInt n ≤ (INT_MAX : Int) := by
  unfold sizeAsInt INT_MAX
  have := Nat.mod_le n 4294967296
  split <;> constructor <;> omega

theorem vresize_grow (v : List Byte) (n : Nat) :
    vresize v (v.length + n) = v ++ List.replicate n 0 := by
  simp [vresize]

theorem vresize_self (v : List Byte) : vresize v v.length = v := by
  simp [vresize]

/-- A growth that keeps the cursor plus the size within `INT_MAX`, on a buffer
that ends at the cursor, appends that many cells. -/
theorem grow_ok (n : Nat) (ty : MPI_Datatype) (s : Packer) (hs : s.buf.length = s.pos)
    (hfit : s.pos + n * wireSize ty ≤ INT_MAX) :
    grow n ty s = .ok
      { buf := s.buf ++ List.replicate (n * wireSize ty) 0
        pos := s.pos
        steps := s.steps ++ [Step.resized s.pos (n * wireSize ty) s.pos] } := by
  have h1 : ¬ INT_MAX < n * wireSize ty := by omega
  have h2 : ¬ INT_MAX < s.pos + n * wireSize ty := by omega
  simp only [grow, MPI_Pack_size, h1, h2, if_false]
  simp only [← hs, vresize_grow]

/-- A growth that would take the cursor plus the size beyond `INT_MAX`. -/
theorem grow_over (n : Nat) (ty : MPI_Datatype) (s : Packer)
    (hfit : INT_MAX < s.pos + n * wireSize ty) : grow n ty s = .error .undefined := by
  by_cases h1 : INT_MAX < n * wireSize ty
  · simp only [grow, MPI_Pack_size, h1, if_true]
  · simp only [grow, MPI_Pack_size, h1, hfit, if_false, if_true]

/-- The write of a value into the cells a growth has just added for it. -/
theorem MPI_Pack_grown (f : Field) (inbuf : List Byte) (n : Nat) (ty : MPI_Datatype)
    (s : Packer) (st : List Step) (hs : s.buf.length = s.pos)
    (hin : n * wireSize ty ≤ inbuf.length) (hfit : s.pos + n * wireSize ty ≤ INT_MAX) :
    MPI_Pack f inbuf n ty
        { buf := s.buf ++ List.replicate (n * wireSize ty) 0, pos := s.pos, steps := st }
      = .ok
      { buf := s.buf ++ inbuf.take (n * wireSize ty)
        pos := s.pos + n * wireSize ty
        steps := st ++ [Step.packed f s.pos (n * wireSize ty) (s.pos + n * wireSize ty)] } := by
  have h1 : ¬ INT_MAX < n * wireSize ty := by omega
  have h2 : ¬ inbuf.length < n * wireSize ty := by omega
  have h3 : sizeAsInt (s.buf ++ List.replicate (n * wireSize ty) (0 : Byte)).length
      = ((s.pos + n * wireSize ty : Nat) : Int) := by
    rw [sizeAsInt_eq _ (by simp [hs]; omega)]
    simp [hs]
  simp only [MPI_Pack, h1, h2, h3, if_false, Int.lt_irrefl]
  simp only [← hs]
  simp

/-- A write that asks for more cells than the array has. -/
theorem MPI_Pack_short (f : Field) (inbuf : List Byte) (n : Nat) (ty : MPI_Datatype)
    (s : Packer) (hin : inbuf.length < n * wireSize ty) :
    MPI_Pack f inbuf n ty s = .error .undefined := by
  by_cases h1 : INT_MAX < n * wireSize ty
  · simp only [MPI_Pack, h1, if_true]
  · simp only [MPI_Pack, h1, hin, if_false, if_true]

theorem le32_length (n : Nat) : (le32 n).length = 4 := rfl

theorem written_append (l m : List Step) : written (l ++ m) = written l + written m := by
  induction l with
  | nil => simp [written]
  | cons a l ih => cases a <;> simp [written, ih, Nat.add_assoc]

/-- Grouped steps followed by grouped steps that start at the cursor reached
are grouped. -/
theorem stepsGrouped_append (c : Nat) (l m : List Step) (hl : stepsGrouped c l = true)
    (hm : stepsGrouped (c + written l) m = true) : stepsGrouped c (l ++ m) = true := by
  induction c, l using stepsGrouped.induct with
  | case1 c => simpa [written] using hm
  | case2 c p size old q n out q2 n2 out2 rest2 ih =>
    unfold stepsGrouped at hl
    simp only [if_true, Bool.and_eq_true, beq_iff_eq] at hl
    simp only [List.cons_append]
    unfold stepsGrouped
    simp only [if_true, Bool.and_eq_true, beq_iff_eq]
    refine ⟨hl.1, ih hl.2 ?_⟩
    have hfacts := hl.1
    have e : c + written (Step.resized p size old :: Step.packed Field.cantEventos q n out
        :: Step.packed Field.idTraza q2 n2 out2 :: rest2) = c + 8 + written rest2 := by
      simp only [written]
      omega
    rw [e] at hm
    exact hm
  | case3 c p size old q n out rest hne =>
    exfalso
    unfold stepsGrouped at hl
    simp only [if_true] at hl
    cases hl
  | case4 c p size old f q n out rest hf ih =>
    unfold stepsGrouped at hl
    simp only [hf, if_false, Bool.and_eq_true] at hl
    simp only [List.cons_append]
    unfold stepsGrouped
    simp only [hf, if_false, Bool.and_eq_true]
    refine ⟨hl.1, ih hl.2 ?_⟩
    have e : c + written (Step.resized p size old :: Step.packed f q n out :: rest)
        = c + n + written rest := by
      simp only [written]
      omega
    rw [e] at hm
    exact hm
  | case5 c l h1 h2 =>
    exfalso
    unfold stepsGrouped at hl
    split at hl
    · exact h1 rfl
    · exact h2 _ _ _ _ _ _ _ _ rfl
    · simp at hl

/-- A growth by the size of a value followed by the write of that value keeps
the writer tight and appends the value. -/
theorem Tight_pack (f : Field) (inbuf : List Byte) (n : Nat) (ty : MPI_Datatype)
    (s : Packer) (hf : f ≠ Field.cantEventos) (hs : Tight s)
    (hin : n * wireSize ty ≤ inbuf.length) (hfit : s.pos + n * wireSize ty ≤ INT_MAX) :
    ∃ g s1, grow n ty s = .ok g ∧ MPI_Pack f inbuf n ty g = .ok s1
      ∧ s1.buf = s.buf ++ inbuf.take (n * wireSize ty) ∧ s1.pos = s.pos + n * wireSize ty
      ∧ Tight s1 := by
  refine ⟨_, _, grow_ok n ty s hs.1 hfit, MPI_Pack_grown f inbuf n ty s _ hs.1 hin hfit,
    rfl, rfl, ?_, ?_, ?_⟩
  · simp [hs.1, Nat.min_eq_left hin]
  · simp [written_append, written, hs.2.1]
  · show stepsGrouped 0 ((s.steps ++ _) ++ _) = true
    rw [List.append_assoc]
    apply stepsGrouped_append _ _ _ hs.2.2
    simp [stepsGrouped, hf, ← hs.2.1]

/-- The shared growth of 8 bytes and the writes of `cantEventos` and `idTraza`
into it. -/
theorem Tight_pack_pair (a b : Nat) (s : Packer) (hs : Tight s) (hfit : s.pos + 8 ≤ INT_MAX) :
    ∃ g s1 s2, grow 2 .MPI_UNSIGNED s = .ok g
      ∧ MPI_Pack .cantEventos (le32 a) 1 .MPI_UNSIGNED g = .ok s1
      ∧ MPI_Pack .idTraza (le32 b) 1 .MPI_UNSIGNED s1 = .ok s2
      ∧ s2.buf = s.buf ++ le32 a ++ le32 b ∧ s2.pos = s.pos + 8 ∧ Tight s2 := by
  have hg := grow_ok 2 .MPI_UNSIGNED s hs.1 (by simpa [wireSize] using hfit)
  have hI : (8 : Nat) ≤ INT_MAX := by unfold INT_MAX; omega
  have hlen : sizeAsInt (s.buf ++ List.replicate (2 * wireSize .MPI_UNSIGNED) (0 : Byte)).length
      = ((s.pos + 8 : Nat) : Int) := by
    rw [sizeAsInt_eq _ (by simp [hs.1, wireSize]; omega)]
    simp [hs.1, wireSize]
  have h1 : MPI_Pack .cantEventos (le32 a) 1 .MPI_UNSIGNED
      { buf := s.buf ++ List.replicate (2 * wireSize .MPI_UNSIGNED) 0, pos := s.pos,
        steps := s.steps ++ [Step.resized s.pos (2 * wireSize .MPI_UNSIGNED) s.pos] }
      = .ok { buf := s.buf ++ le32 a ++ List.replicate 4 0
              pos := s.pos + 4
              steps := s.steps ++ [Step.resized s.pos 8 s.pos]
                ++ [Step.packed .cantEventos s.pos 4 (s.pos + 8)] } := by
    have c1 : ¬ INT_MAX < 1 * wireSize .MPI_UNSIGNED := by unfold INT_MAX; simp [wireSize]
    have c2 : ¬ (le32 a).length < 1 * wireSize .MPI_UNSIGNED := by simp [wireSize, le32_length]
    have c3 : ¬ ((s.pos + 8 : Nat) : Int) < ((s.pos + 1 * wireSize .MPI_UNSIGNED : Nat) : Int) := by
      simp [wireSize]
    simp only [MPI_Pack, c1, c2, hlen, c3, if_false]
    simp only [wireSize, le32, ← hs.1]
    simp
  have hlen2 : sizeAsInt (s.buf ++ le32 a ++ List.replicate 4 (0 : Byte)).length
      = ((s.pos + 8 : Nat) : Int) := by
    rw [sizeAsInt_eq _ (by simp [hs.1, le32_length]; omega)]
    simp [hs.1, le32_length]
  have h2 : MPI_Pack .idTraza (le32 b) 1 .MPI_UNSIGNED
      { buf := s.buf ++ le32 a ++ List.replicate 4 0
        pos := s.pos + 4
        steps := s.steps ++ [Step.resized s.pos 8 s.pos]
          ++ [Step.packed .cantEventos s.pos 4 (s.pos + 8)] }
      = .ok { buf := s.buf ++ le32 a ++ le32 b
              pos := s.pos + 8
              steps := s.steps ++ [Step.resized s.pos 8 s.pos]
                ++ [Step.packed .cantEventos s.pos 4 (s.pos + 8)]
                ++ [Step.packed .idTraza (s.pos + 4) 4 (s.pos + 8)] } := by
    have c1 : ¬ INT_MAX < 1 * wireSize .MPI_UNSIGNED := by unfold INT_MAX; simp [wireSize]
    have c2 : ¬ (le32 b).length < 1 * wireSize .MPI_UNSIGNED := by simp [wireSize, le32_length]
    have c3 : ¬ ((s.pos + 8 : Nat) : Int)
        < ((s.pos + 4 + 1 * wireSize .MPI_UNSIGNED : Nat) : Int) := by
      simp only [wireSize]
      omega
    simp only [MPI_Pack, c1, c2, hlen2, c3, if_false]
    simp only [wireSize, le32, ← hs.1]
    simp only [List.append_assoc, List.cons_append, List.nil_append, List.singleton_append,
      List.length_append, List.length_cons, List.length_nil, List.length_replicate,
      List.replicate, Nat.add_assoc]
    simp [List.take_append, List.drop_append]
  refine ⟨_, _, _, hg, h1, h2, rfl, rfl, ?_, ?_, ?_⟩
  · simp [le32_length, hs.1]
  · simp [written_append, written, hs.2.1]
  · show stepsGrouped 0 (((s.steps ++ _) ++ _) ++ _) = true
    rw [List.append_assoc, List.append_assoc]
    apply stepsGrouped_append _ _ _ hs.2.2
    simp [stepsGrouped, ← hs.2.1]

theorem readableEventos_cons (k : Nat) (e : Evento) (es : List Evento) :
    ReadableEventos (k + 1) (e :: es) ↔ e.cant ≤ e.evento.length ∧ ReadableEventos k es := by
  simp [ReadableEventos]
  tauto

/-- The inner loop of the writer appends the wire bytes of the first `k` events
and keeps the writer tight; when an array is too short for its count, or the
bytes would take the cursor beyond `INT_MAX`, the run leaves the defined
behaviour. -/
theorem packEventos_spec (k : Nat) : ∀ (es : List Evento) (s : Packer), Tight s →
    s.pos ≤ INT_MAX →
    (ReadableEventos k es ∧ s.pos + ((es.take k).flatMap eventoWire).length ≤ INT_MAX →
      ∃ s1, packEventos k es s = .ok s1
        ∧ s1.buf = s.buf ++ (es.take k).flatMap eventoWire ∧ Tight s1)
    ∧ (¬ (ReadableEventos k es ∧ s.pos + ((es.take k).flatMap eventoWire).length ≤ INT_MAX) →
        packEventos k es s = .error .undefined) := by
  induction k with
  | zero =>
    intro es s hs hp
    simp [packEventos, ReadableEventos, hs, hp]
  | succ k ih =>
    intro es s hs hp
    cases es with
    | nil => simp [packEventos, ReadableEventos]
    | cons e es =>
      have hlen : ((e :: es).take (k + 1)).flatMap eventoWire
          = eventoWire e ++ (es.take k).flatMap eventoWire := by simp
      have hew : (eventoWire e).length = 1 + min e.cant e.evento.length := by
        simp [eventoWire]
        omega
      rw [hlen, List.length_append, hew, readableEventos_cons]
      by_cases hA : s.pos + 1 * wireSize .MPI_UNSIGNED_CHAR ≤ INT_MAX
      · obtain ⟨g1, s1, hg1, h1, hb1, hp1, ht1⟩ := Tight_pack .cant [byteOf e.cant] 1
          .MPI_UNSIGNED_CHAR s (by decide) hs (by simp [wireSize]) hA
        by_cases hB : s1.pos + e.cant * wireSize .MPI_CHAR ≤ INT_MAX
        · by_cases hc : e.cant * wireSize .MPI_CHAR ≤ e.evento.length
          · obtain ⟨g2, s2, hg2, h2, hb2, hp2, ht2⟩ := Tight_pack .evento e.evento e.cant
              .MPI_CHAR s1 (by decide) ht1 hc hB
            have hrec := ih es s2 ht2 (by omega)
            simp only [wireSize, Nat.mul_one] at hp1 hp2 hc
            simp only [packEventos, hg1, h1, hg2, h2]
            constructor
            · rintro ⟨⟨_, hre⟩, hfit⟩
              obtain ⟨s3, h3, hb3, ht3⟩ := hrec.1 ⟨hre, by omega⟩
              exact ⟨s3, h3, by simp [hb3, hb2, hb1, eventoWire, wireSize], ht3⟩
            · intro hn
              apply hrec.2
              rintro ⟨hre, hfit⟩
              exact hn ⟨⟨hc, hre⟩, by omega⟩
          · have hg2 := grow_ok e.cant .MPI_CHAR s1 ht1.1 hB
            have h2 := MPI_Pack_short .evento e.evento e.cant .MPI_CHAR
              { buf := s1.buf ++ List.replicate (e.cant * wireSize .MPI_CHAR) 0, pos := s1.pos,
                steps := s1.steps ++ [Step.resized s1.pos (e.cant * wireSize .MPI_CHAR) s1.pos] }
              (by omega)
            simp only [wireSize, Nat.mul_one] at hc
            simp only [packEventos, hg1, h1, hg2, h2]
            simp [hc]
        · have hg2 := grow_over e.cant .MPI_CHAR s1 (by omega)
          simp only [wireSize, Nat.mul_one] at hp1 hB
          simp only [packEventos, hg1, h1, hg2]
          constructor
          · rintro ⟨⟨hc, _⟩, hfit⟩
            omega
          · intro _
            trivial
      · have hg1 := grow_over 1 .MPI_UNSIGNED_CHAR s (by omega)
        simp only [wireSize, Nat.mul_one] at hA
        simp only [packEventos, hg1]
        constructor
        · rintro ⟨_, hfit⟩
          omega
        · intro _
          trivial

/-- The loop body of the writer appends the wire bytes of the trace and keeps
the writer tight; when an array is too short for its count, or the bytes would
take the cursor beyond `INT_MAX`, the run leaves the defined behaviour. -/
theorem packTraza_spec (t : Traza) (s : Packer) (hs : Tight s) (hp : s.pos ≤ INT_MAX) :
    (ReadableTraza t ∧ s.pos + (trazaWire t).length ≤ INT_MAX →
      ∃ s1, packTraza t s = .ok s1 ∧ s1.buf = s.buf ++ trazaWire t ∧ Tight s1)
    ∧ (¬ (ReadableTraza t ∧ s.pos + (trazaWire t).length ≤ INT_MAX) →
        packTraza t s = .error .undefined) := by
  have hlen : (trazaWire t).length = 9 + min t.cantEventos t.nombre.length
      + ((t.eventos.take t.cantEventos).flatMap eventoWire).length := by
    simp only [trazaWire, List.length_append, le32_length, List.length_singleton,
      List.length_take]
  rw [hlen]
  unfold ReadableTraza
  by_cases hA : s.pos + 8 ≤ INT_MAX
  · obtain ⟨g1, s1, s2, hg1, h1, h2, hb2, hp2, ht2⟩ :=
      Tight_pack_pair t.cantEventos t.idTraza s hs hA
    by_cases hB : s2.pos + 1 * wireSize .MPI_UNSIGNED_CHAR ≤ INT_MAX
    · obtain ⟨g3, s3, hg3, h3, hb3, hp3, ht3⟩ := Tight_pack .revisado [boolByte t.revisado] 1
        .MPI_UNSIGNED_CHAR s2 (by decide) ht2 (by simp [wireSize]) hB
      by_cases hC : s3.pos + t.cantEventos * wireSize .MPI_CHAR ≤ INT_MAX
      · by_cases hc : t.cantEventos * wireSize .MPI_CHAR ≤ t.nombre.length
        · obtain ⟨g4, s4, hg4, h4, hb4, hp4, ht4⟩ := Tight_pack .nombre t.nombre t.cantEventos
            .MPI_CHAR s3 (by decide) ht3 hc hC
          have hrec := packEventos_spec t.cantEventos t.eventos s4 ht4 (by omega)
          simp only [wireSize, Nat.mul_one] at hp3 hp4 hc
          simp only [packTraza, hg1, h1, h2, hg3, h3, hg4, h4]
          constructor
          · rintro ⟨⟨_, hre⟩, hfit⟩
            obtain ⟨s5, h5, hb5, ht5⟩ := hrec.1 ⟨hre, by omega⟩
            exact ⟨s5, h5, by simp [hb5, hb4, hb3, hb2, trazaWire, wireSize], ht5⟩
          · intro hn
            apply hrec.2
            rintro ⟨hre, hfit⟩
            exact hn ⟨⟨hc, hre⟩, by omega⟩
        · have hg4 := grow_ok t.cantEventos .MPI_CHAR s3 ht3.1 hC
          have h4 := MPI_Pack_short .nombre t.nombre t.cantEventos .MPI_CHAR
            { buf := s3.buf ++ List.replicate (t.cantEventos * wireSize .MPI_CHAR) 0
              pos := s3.pos
              steps := s3.steps
                ++ [Step.resized s3.pos (t.cantEventos * wireSize .MPI_CHAR) s3.pos] }
            (by omega)
          simp only [wireSize, Nat.mul_one] at hc
          simp only [packTraza, hg1, h1, h2, hg3, h3, hg4, h4]
          simp [hc]
      · have hg4 := grow_over t.cantEventos .MPI_CHAR s3 (by omega)
        simp only [wireSize, Nat.mul_one] at hp3 hC
        simp only [packTraza, hg1, h1, h2, hg3, h3, hg4]
        constructor
        · rintro ⟨⟨hc, _⟩, hfit⟩
          omega
        · intro _
          trivial
    · have hg3 := grow_over 1 .MPI_UNSIGNED_CHAR s2 (by omega)
      simp only [wireSize, Nat.mul_one] at hB
      simp only [packTraza, hg1, h1, h2, hg3]
      constructor
      · rintro ⟨_, hfit⟩
        omega
      · intro _
        trivial
  · have hg1 := grow_over 2 .MPI_UNSIGNED s (by simp only [wireSize]; omega)
    simp only [packTraza, hg1]
    constructor
    · rintro ⟨_, hfit⟩
      omega
    · intro _
      trivial

/-- A tight writer has its cursor at the end of the buffer. -/
theorem Tight_pos (s s1 : Packer) (w : List Byte) (hs : Tight s) (h1 : Tight s1)
    (hb : s1.buf = s.buf ++ w) : s1.pos = s.pos + w.length := by
  have := hs.1
  have := h1.1
  have : s1.buf.length = s.buf.length + w.length := by rw [hb, List.length_append]
  omega

/-- The outer loop of the writer appends the wire bytes of the first `k` traces
and keeps the writer tight; when an array is too short for its count, or the
bytes would take the cursor beyond `INT_MAX`, the run leaves the defined
behaviour. -/
theorem packTrazas_spec (k : Nat) : ∀ (ts : List Traza) (s : Packer), Tight s →
    s.pos ≤ INT_MAX →
    ((k ≤ ts.length ∧ ∀ t ∈ ts.take k, ReadableTraza t)
        ∧ s.pos + ((ts.take k).flatMap trazaWire).length ≤ INT_MAX →
      ∃ s1, packTrazas k ts s = .ok s1
        ∧ s1.buf = s.buf ++ (ts.take k).flatMap trazaWire ∧ Tight s1)
    ∧ (¬ ((k ≤ ts.length ∧ ∀ t ∈ ts.take k, ReadableTraza t)
        ∧ s.pos + ((ts.take k).flatMap trazaWire).length ≤ INT_MAX) →
        packTrazas k ts s = .error .undefined) := by
  induction k with
  | zero =>
    intro ts s hs hp
    simp [packTrazas, hs, hp]
  | succ k ih =>
    intro ts s hs hp
    cases ts with
    | nil => simp [packTrazas]
    | cons t ts =>
      have hr : (k + 1 ≤ (t :: ts).length ∧ ∀ x ∈ (t :: ts).take (k + 1), ReadableTraza x)
          ↔ ReadableTraza t ∧ (k ≤ ts.length ∧ ∀ x ∈ ts.take k, ReadableTraza x) := by
        simp
        tauto
      have hlen : (((t :: ts).take (k + 1)).flatMap trazaWire).length
          = (trazaWire t).length + ((ts.take k).flatMap trazaWire).length := by simp
      rw [hr, hlen]
      by_cases hc : ReadableTraza t ∧ s.pos + (trazaWire t).length ≤ INT_MAX
      · obtain ⟨s1, h1, hb1, ht1⟩ := (packTraza_spec t s hs hp).1 hc
        have hp1 := Tight_pos s s1 _ hs ht1 hb1
        have hrec := ih ts s1 ht1 (by omega)
        simp only [packTrazas, h1]
        constructor
        · rintro ⟨⟨_, hre⟩, hfit⟩
          obtain ⟨s2, h2, hb2, ht2⟩ := hrec.1 ⟨hre, by omega⟩
          exact ⟨s2, h2, by simp [hb2, hb1], ht2⟩
        · intro hn
          apply hrec.2
          rintro ⟨hre, hfit⟩
          exact hn ⟨⟨hc.1, hre⟩, by omega⟩
      · have h1 := (packTraza_spec t s hs hp).2 hc
        simp only [packTrazas, h1]
        constructor
        · rintro ⟨⟨hrt, _⟩, hfit⟩
          exact absurd ⟨hrt, by omega⟩ hc
        · intro _
          trivial

theorem encInt_length (i : Int) : (encInt i).length = 4 := rfl

/-- The run of `pack_plista` before its last statement: on a readable
collection whose wire bytes are at most `INT_MAX` it ends tight with the wire
format in the buffer, on any other it leaves the defined behaviour. -/
theorem packRun_spec (incount : Int) (data : List Traza) (buf0 : List Byte) :
    (Readable incount data ∧ Fits incount data → ∃ s, packRun incount data buf0 = .ok s
        ∧ s.buf = wireFormat incount data ∧ Tight s)
    ∧ (¬ (Readable incount data ∧ Fits incount data) →
        packRun incount data buf0 = .error .undefined) := by
  have hs0 : Tight { buf := vclear buf0, pos := 0, steps := [] } := ⟨rfl, rfl, rfl⟩
  obtain ⟨g, s1, hg, h1, hb1, hp1, ht1⟩ := Tight_pack .incount (encInt incount) 1 .MPI_INT _
    (by decide) hs0 (by simp [wireSize, encInt_length]) (by unfold INT_MAX; simp [wireSize])
  simp only [wireSize, Nat.mul_one, Nat.zero_add] at hp1
  have hrec := packTrazas_spec incount.toNat data s1 ht1 (by unfold INT_MAX; omega)
  have hlen : (wireFormat incount data).length
      = 4 + ((data.take incount.toNat).flatMap trazaWire).length := by
    simp [wireFormat, encInt_length]
  simp only [packRun, hg, h1, Readable, Fits, hlen]
  rw [hp1] at hrec
  constructor
  · intro hre
    obtain ⟨s2, h2, hb2, ht2⟩ := hrec.1 hre
    refine ⟨s2, h2, ?_, ht2⟩
    simp [hb2, hb1, wireFormat, vclear, wireSize]
    rfl
  · exact hrec.2

/-! ## Lemmas on the reader -/

/-- Reading at the end of `pre` a value that is followed by `rest`, in a buffer
of at most `INT_MAX` bytes. -/
theorem MPI_Unpack_mid (pre x rest : List Byte) (pos n : Nat) (ty : MPI_Datatype)
    (hpos : pos = pre.length) (hx : x.length = n * wireSize ty)
    (hfit : (pre ++ x ++ rest).length ≤ INT_MAX) :
    MPI_Unpack (pre ++ x ++ rest) pos n ty = .ok (x, pos + n * wireSize ty) := by
  subst hpos
  have hl : (pre ++ x ++ rest).length = pre.length + x.length + rest.length := by
    simp only [List.length_append]
  have c1 : ¬ INT_MAX < n * wireSize ty := by omega
  have c2 : ¬ sizeAsInt (pre ++ x ++ rest).length
      < ((pre.length + n * wireSize ty : Nat) : Int) := by
    rw [sizeAsInt_eq _ hfit]
    omega
  simp only [MPI_Unpack, c1, c2, if_false]
  simp [← hx]

theorem leValue_byteOf (n : Nat) (h : n < 256) : leValue [byteOf n] = n := by
  simp [leValue, byteOf, Nat.mod_eq_of_lt h]

theorem leValue_single (b : Byte) : leValue [b] = b.val := by
  simp [leValue]

theorem leValue_le32 (n : Nat) (h : n < 4294967296) : leValue (le32 n) = n := by
  simp only [leValue, le32, byteOf]
  omega

theorem decInt_encInt (i : Int) (h0 : 0 ≤ i) (h1 : i < 2147483648) : decInt (encInt i) = i := by
  unfold decInt encInt
  have h2 : (i % 4294967296).toNat = i.toNat := by
    rw [Int.emod_eq_of_lt h0 (by omega)]
  rw [h2, leValue_le32 _ (by omega)]
  have : i.toNat < 2147483648 := by omega
  simp [this]
  omega

theorem unpackEventos_layout (alloc : Allocator) (evs : List (List Byte)) :
    ∀ (pre rest : List Byte) (pos : Nat), pos = pre.length →
      (∀ c ∈ evs, c.length < 256) →
      (∀ c ∈ evs, newArray alloc .evento c.length = .ok ()) →
      (pre ++ evs.flatMap eventLayout ++ rest).length ≤ INT_MAX →
      unpackEventos alloc evs.length (pre ++ evs.flatMap eventLayout ++ rest) pos
        = .ok (evs.map eventOf, pos + (evs.flatMap eventLayout).length) := by
  induction evs with
  | nil => intro pre rest pos _ _ _ _; simp [unpackEventos]
  | cons c evs ih =>
    intro pre rest pos hpos hc hg hfit
    have hlen : c.length < 256 := hc c (by simp)
    have hb : pre ++ (c :: evs).flatMap eventLayout ++ rest
        = pre ++ [byteOf c.length] ++ (c ++ evs.flatMap eventLayout ++ rest) := by
      simp [eventLayout]
    have hb2 : pre ++ (c :: evs).flatMap eventLayout ++ rest
        = (pre ++ [byteOf c.length]) ++ c ++ (evs.flatMap eventLayout ++ rest) := by
      simp [eventLayout]
    have hb3 : pre ++ (c :: evs).flatMap eventLayout ++ rest
        = (pre ++ [byteOf c.length] ++ c) ++ evs.flatMap eventLayout ++ rest := by
      simp [eventLayout]
    have h1 := MPI_Unpack_mid pre [byteOf c.length] (c ++ evs.flatMap eventLayout ++ rest)
      pos 1 .MPI_UNSIGNED_CHAR hpos (by simp [wireSize]) (by rw [← hb]; exact hfit)
    have h2 := MPI_Unpack_mid (pre ++ [byteOf c.length]) c (evs.flatMap eventLayout ++ rest)
      (pos + 1 * wireSize .MPI_UNSIGNED_CHAR) c.length .MPI_CHAR (by simp [hpos, wireSize])
      (by simp [wireSize]) (by rw [← hb2]; exact hfit)
    have h3 := ih (pre ++ [byteOf c.length] ++ c) rest
      (pos + 1 * wireSize .MPI_UNSIGNED_CHAR + c.length * wireSize .MPI_CHAR)
      (by simp [hpos, wireSize]; omega) (fun x hx => hc x (by simp [hx]))
      (fun x hx => hg x (by simp [hx])) (by rw [← hb3]; exact hfit)
    have hn := hg c (by simp)
    rw [← hb] at h1
    rw [← hb2] at h2
    rw [← hb3] at h3
    simp only [List.length_cons, unpackEventos, h1, leValue_byteOf _ hlen, hn, h2, h3]
    simp [eventOf, eventLayout, wireSize]
    omega

theorem unpackTraza_layout (alloc : Allocator) (w : WireTrace) (pre rest : List Byte)
    (pos : Nat) (hpos : pos = pre.length) (hw : w.WellFormed)
    (hg : newArray alloc .nombre w.eventCount = .ok ()
      ∧ newArray alloc .eventos w.eventCount = .ok ()
      ∧ ∀ c ∈ w.events, newArray alloc .evento c.length = .ok ())
    (hfit : (pre ++ traceLayout w ++ rest).length ≤ INT_MAX) :
    unpackTraza alloc (pre ++ traceLayout w ++ rest) pos
      = .ok (w.decoded, pos + (traceLayout w).length) := by
  obtain ⟨hec, hid, hname, hevs, hc⟩ := hw
  obtain ⟨hg1, hg2, hg3⟩ := hg
  have hb1 : pre ++ traceLayout w ++ rest = pre ++ le32 w.eventCount
      ++ (le32 w.traceId ++ [w.reviewed] ++ w.name ++ w.events.flatMap eventLayout ++ rest) := by
    simp [traceLayout]
  have hb2 : pre ++ traceLayout w ++ rest = (pre ++ le32 w.eventCount) ++ le32 w.traceId
      ++ ([w.reviewed] ++ w.name ++ w.events.flatMap eventLayout ++ rest) := by
    simp [traceLayout]
  have hb3 : pre ++ traceLayout w ++ rest
      = (pre ++ le32 w.eventCount ++ le32 w.traceId) ++ [w.reviewed]
        ++ (w.name ++ w.events.flatMap eventLayout ++ rest) := by
    simp [traceLayout]
  have hb4 : pre ++ traceLayout w ++ rest
      = (pre ++ le32 w.eventCount ++ le32 w.traceId ++ [w.reviewed]) ++ w.name
        ++ (w.events.flatMap eventLayout ++ rest) := by
    simp [traceLayout]
  have hb5 : pre ++ traceLayout w ++ rest
      = (pre ++ le32 w.eventCount ++ le32 w.traceId ++ [w.reviewed] ++ w.name)
        ++ w.events.flatMap eventLayout ++ rest := by
    simp [traceLayout]
  have h1 := MPI_Unpack_mid pre (le32 w.eventCount)
    (le32 w.traceId ++ [w.reviewed] ++ w.name ++ w.events.flatMap eventLayout ++ rest)
    pos 1 .MPI_UNSIGNED hpos (by simp [wireSize, le32_length]) (by rw [← hb1]; exact hfit)
  have h2 := MPI_Unpack_mid (pre ++ le32 w.eventCount) (le32 w.traceId)
    ([w.reviewed] ++ w.name ++ w.events.flatMap eventLayout ++ rest)
    (pos + 4) 1 .MPI_UNSIGNED (by simp [hpos, le32_length]) (by simp [wireSize, le32_length])
    (by rw [← hb2]; exact hfit)
  have h3 := MPI_Unpack_mid (pre ++ le32 w.eventCount ++ le32 w.traceId) [w.reviewed]
    (w.name ++ w.events.flatMap eventLayout ++ rest)
    (pos + 4 + 4) 1 .MPI_UNSIGNED_CHAR (by simp [hpos, le32_length]) (by simp [wireSize])
    (by rw [← hb3]; exact hfit)
  have h4 := MPI_Unpack_mid (pre ++ le32 w.eventCount ++ le32 w.traceId ++ [w.reviewed]) w.name
    (w.events.flatMap eventLayout ++ rest)
    (pos + 4 + 4 + 1) w.eventCount .MPI_CHAR (by simp [hpos, le32_length])
    (by simp [wireSize, hname]) (by rw [← hb4]; exact hfit)
  have h5 := unpackEventos_layout alloc w.events
    (pre ++ le32 w.eventCount ++ le32 w.traceId ++ [w.reviewed] ++ w.name) rest
    (pos + 4 + 4 + 1 + w.eventCount) (by simp [hpos, le32_length, hname]; omega) hc hg3
    (by rw [← hb5]; exact hfit)
  rw [← hb1] at h1
  rw [← hb2] at h2
  rw [← hb3] at h3
  rw [← hb4] at h4
  rw [← hb5, hevs] at h5
  simp only [wireSize, Nat.one_mul, Nat.mul_one] at h1 h2 h3 h4
  simp only [unpackTraza, h1, h2, h3, leValue_le32 _ hec, leValue_le32 _ hid, hg1, h4, hg2, h5,
    leValue_single]
  simp [WireTrace.decoded, traceLayout, le32_length, hname]
  constructor
  · constructor
    · intro hv
      exact Fin.ext hv
    · intro hv
      rw [hv]
      rfl
  · omega

theorem unpackTrazas_layout (alloc : Allocator) (ws : List WireTrace) :
    ∀ (pre rest : List Byte) (pos : Nat), pos = pre.length →
      (∀ w ∈ ws, w.WellFormed) →
      (∀ w ∈ ws, newArray alloc .nombre w.eventCount = .ok ()
        ∧ newArray alloc .eventos w.eventCount = .ok ()
        ∧ ∀ c ∈ w.events, newArray alloc .evento c.length = .ok ()) →
      (pre ++ ws.flatMap traceLayout ++ rest).length ≤ INT_MAX →
      unpackTrazas alloc ws.length (pre ++ ws.flatMap traceLayout ++ rest) pos
        = .ok (ws.map WireTrace.decoded, pos + (ws.flatMap traceLayout).length) := by
  induction ws with
  | nil => intro pre rest pos _ _ _ _; simp [unpackTrazas]
  | cons w ws ih =>
    intro pre rest pos hpos hw hg hfit
    have hb1 : pre ++ (w :: ws).flatMap traceLayout ++ rest
        = pre ++ traceLayout w ++ (ws.flatMap traceLayout ++ rest) := by
      simp
    have hb2 : pre ++ (w :: ws).flatMap traceLayout ++ rest
        = (pre ++ traceLayout w) ++ ws.flatMap traceLayout ++ rest := by
      simp
    have h1 := unpackTraza_layout alloc w pre (ws.flatMap traceLayout ++ rest) pos hpos
      (hw w (by simp)) (hg w (by simp)) (by rw [← hb1]; exact hfit)
    have h2 := ih (pre ++ traceLayout w) rest (pos + (traceLayout w).length)
      (by simp [hpos]) (fun x hx => hw x (by simp [hx])) (fun x hx => hg x (by simp [hx]))
      (by rw [← hb2]; exact hfit)
    rw [← hb1] at h1
    rw [← hb2] at h2
    simp only [List.length_cons, unpackTrazas, h1, h2]
    simp
    omega

/-- The reader on a well-formed layout followed by arbitrary bytes, in a buffer
of at most `INT_MAX` bytes and with every allocation granted: the records
decoded, and the cursor at the end of the layout. -/
theorem unpackRun_layout (alloc : Allocator) (ws : List WireTrace) (rest : List Byte)
    (hn : ws.length < 2147483648) (hw : ∀ w ∈ ws, w.WellFormed) (hg : Granted alloc ws)
    (hfit : (layout ws ++ rest).length ≤ INT_MAX) :
    unpackRun alloc (layout ws ++ rest)
      = .ok ((ws.length : Int), ws.map WireTrace.decoded, (layout ws).length) := by
  have hb : layout ws ++ rest = [] ++ encInt ws.length ++ (ws.flatMap traceLayout ++ rest) := by
    simp [layout]
  have hb2 : layout ws ++ rest = encInt ws.length ++ ws.flatMap traceLayout ++ rest := by
    simp [layout]
  have h1 := MPI_Unpack_mid [] (encInt ws.length) (ws.flatMap traceLayout ++ rest) 0 1 .MPI_INT
    rfl (by simp [wireSize, encInt_length]) (by rw [← hb]; exact hfit)
  have h2 := unpackTrazas_layout alloc ws (encInt ws.length) rest 4 (by simp [encInt_length]) hw
    hg.2 (by rw [← hb2]; exact hfit)
  have hd : decInt (encInt (ws.length : Int)) = (ws.length : Int) :=
    decInt_encInt _ (by omega) (by omega)
  have hnot : ¬ ((ws.length : Int) < 0) := by omega
  rw [← hb] at h1
  rw [← hb2] at h2
  simp only [wireSize, Nat.one_mul, Nat.zero_add] at h1
  simp only [unpackRun, h1, hd, hnot, if_false, Int.toNat_ofNat, hg.1, h2]
  simp [layout, encInt_length]

/-- What a successful read says. -/
theorem MPI_Unpack_ok (buf : List Byte) (pos n : Nat) (ty : MPI_Datatype) (x : List Byte)
    (p : Nat) (h : MPI_Unpack buf pos n ty = .ok (x, p)) :
    x = (buf.drop pos).take (n * wireSize ty) ∧ x.length = n * wireSize ty
      ∧ p = pos + n * wireSize ty ∧ p ≤ buf.length ∧ p ≤ INT_MAX := by
  unfold MPI_Unpack at h
  split at h
  · cases h
  · split at h
    · cases h
    · rename_i hc hs
      simp only [Except.ok.injEq, Prod.mk.injEq] at h
      obtain ⟨h1, h2⟩ := h
      subst h1 h2
      obtain ⟨ha, hb⟩ := sizeAsInt_le buf.length
      refine ⟨rfl, ?_, rfl, by omega, by omega⟩
      simp
      omega

theorem leValue_lt_256 (c : List Byte) (h : c.length = 1) : leValue c < 256 := by
  match c, h with
  | [b], _ => simp [leValue]

theorem unpackEventos_sized (alloc : Allocator) (k : Nat) :
    ∀ (buf : List Byte) (pos : Nat) (es : List Evento)
    (p : Nat), unpackEventos alloc k buf pos = .ok (es, p) →
      es.length = k ∧ (∀ e ∈ es, e.Sized) ∧ pos ≤ p
        ∧ (pos ≤ buf.length → p ≤ buf.length) ∧ (pos ≤ INT_MAX → p ≤ INT_MAX) := by
  induction k with
  | zero =>
    intro buf pos es p h
    simp only [unpackEventos, Except.ok.injEq, Prod.mk.injEq] at h
    obtain ⟨h1, h2⟩ := h
    subst h1 h2
    simp
  | succ k ih =>
    intro buf pos es p h
    simp only [unpackEventos] at h
    split at h
    · cases h
    · rename_i c p1 h1
      split at h
      · cases h
      · rename_i hn
        split at h
        · cases h
        · rename_i ev p2 h2
          split at h
          · cases h
          · rename_i es1 p3 h3
            simp only [Except.ok.injEq, Prod.mk.injEq] at h
            obtain ⟨he, hp⟩ := h
            subst he hp
            obtain ⟨_, hc1, hp1, _, _⟩ := MPI_Unpack_ok _ _ _ _ _ _ h1
            obtain ⟨_, hc2, hp2, hb2, hi2⟩ := MPI_Unpack_ok _ _ _ _ _ _ h2
            obtain ⟨hl, hs, hle, hb, hi⟩ := ih _ _ _ _ h3
            have hlt := leValue_lt_256 c (by simpa [wireSize] using hc1)
            refine ⟨by simp [hl], ?_, by omega, fun _ => hb hb2, fun _ => hi hi2⟩
            intro e he
            simp only [List.mem_cons] at he
            rcases he with rfl | he
            · exact ⟨by simpa [wireSize] using hc2, Nat.le_of_lt_succ hlt⟩
            · exact hs e he

theorem unpackTraza_sized (alloc : Allocator) (buf : List Byte) (pos : Nat) (t : Traza)
    (p : Nat) (h : unpackTraza alloc buf pos = .ok (t, p)) :
    t.Sized ∧ pos < p ∧ p ≤ buf.length ∧ p ≤ INT_MAX := by
  simp only [unpackTraza] at h
  split at h
  · cases h
  · rename_i ce p1 h1
    split at h
    · cases h
    · rename_i id p2 h2
      split at h
      · cases h
      · rename_i rv p3 h3
        split at h
        · cases h
        · rename_i hn1
          split at h
          · cases h
          · rename_i nm p4 h4
            split at h
            · cases h
            · rename_i hn2
              split at h
              · cases h
              · rename_i es p5 h5
                simp only [Except.ok.injEq, Prod.mk.injEq] at h
                obtain ⟨he, hp⟩ := h
                subst he hp
                obtain ⟨_, _, hp1, _, _⟩ := MPI_Unpack_ok _ _ _ _ _ _ h1
                obtain ⟨_, _, hp2, _, _⟩ := MPI_Unpack_ok _ _ _ _ _ _ h2
                obtain ⟨_, _, hp3, _, _⟩ := MPI_Unpack_ok _ _ _ _ _ _ h3
                obtain ⟨_, hc4, hp4, hb4, hi4⟩ := MPI_Unpack_ok _ _ _ _ _ _ h4
                obtain ⟨hl, hs, hle, hb, hi⟩ := unpackEventos_sized _ _ _ _ _ _ h5
                simp only [wireSize] at hp1 hp2 hp3 hp4 hc4
                exact ⟨⟨by simpa using hc4, hl, hs⟩, by omega, hb hb4, hi hi4⟩

theorem unpackTrazas_sized (alloc : Allocator) (k : Nat) :
    ∀ (buf : List Byte) (pos : Nat) (ts : List Traza)
    (p : Nat), unpackTrazas alloc k buf pos = .ok (ts, p) →
      ts.length = k ∧ (∀ t ∈ ts, t.Sized) ∧ pos ≤ p
        ∧ (pos ≤ buf.length → p ≤ buf.length) ∧ (pos ≤ INT_MAX → p ≤ INT_MAX) := by
  induction k with
  | zero =>
    intro buf pos ts p h
    simp only [unpackTrazas, Except.ok.injEq, Prod.mk.injEq] at h
    obtain ⟨h1, h2⟩ := h
    subst h1 h2
    simp
  | succ k ih =>
    intro buf pos ts p h
    simp only [unpackTrazas] at h
    split at h
    · cases h
    · rename_i t p1 h1
      split at h
      · cases h
      · rename_i ts1 p2 h2
        simp only [Except.ok.injEq, Prod.mk.injEq] at h
        obtain ⟨he, hp⟩ := h
        subst he hp
        obtain ⟨hs1, hlt, hb1, hi1⟩ := unpackTraza_sized _ _ _ _ _ h1
        obtain ⟨hl, hs, hle, hb, hi⟩ := ih _ _ _ _ h2
        refine ⟨by simp [hl], ?_, by omega, fun _ => hb hb1, fun _ => hi hi1⟩
        intro t he
        simp only [List.mem_cons] at he
        rcases he with rfl | he
        · exact hs1
        · exact hs t he

/-- What a successful run of the reader says: the count is not negative and is
the number of traces, every trace has its sizes, and the cursor is within the
buffer and within `INT_MAX`. -/
theorem unpackRun_sized (alloc : Allocator) (buf : List Byte) (outcount : Int)
    (data : List Traza) (p : Nat) (h : unpackRun alloc buf = .ok (outcount, data, p)) :
    0 ≤ outcount ∧ (data.length : Int) = outcount ∧ (∀ t ∈ data, t.Sized)
      ∧ 4 ≤ p ∧ p ≤ buf.length ∧ p ≤ INT_MAX := by
  simp only [unpackRun] at h
  split at h
  · cases h
  · rename_i c p1 h1
    split at h
    · cases h
    · rename_i hneg
      split at h
      · cases h
      · rename_i hn
        split at h
        · cases h
        · rename_i ts p2 h2
          simp only [Except.ok.injEq, Prod.mk.injEq] at h
          obtain ⟨ho, hd, hp⟩ := h
          subst ho hd hp
          obtain ⟨_, _, hp1, hb1, hi1⟩ := MPI_Unpack_ok _ _ _ _ _ _ h1
          obtain ⟨hl, hs, hle, hb, hi⟩ := unpackTrazas_sized _ _ _ _ _ _ h2
          simp only [wireSize] at hp1
          refine ⟨by omega, ?_, hs, by omega, hb hb1, hi hi1⟩
          rw [hl]
          omega

/-- A read that succeeds on a buffer, replayed on the first `k` bytes: the same
result if it ends within them, an erroneous call otherwise. -/
theorem MPI_Unpack_take (buf : List Byte) (pos n : Nat) (ty : MPI_Datatype) (x : List Byte)
    (p k : Nat) (hk : k ≤ INT_MAX) (h : MPI_Unpack buf pos n ty = .ok (x, p)) :
    MPI_Unpack (buf.take k) pos n ty = if p ≤ k then .ok (x, p) else .error .undefined := by
  obtain ⟨hx, _, hp, hb, hi⟩ := MPI_Unpack_ok _ _ _ _ _ _ h
  have c1 : ¬ INT_MAX < n * wireSize ty := by omega
  have hl : (List.take k buf).length = min k buf.length := List.length_take _ _
  have hsz : sizeAsInt (List.take k buf).length = ((min k buf.length : Nat) : Int) :=
    hl ▸ sizeAsInt_eq _ (by omega)
  unfold MPI_Unpack
  rw [if_neg c1, hsz]
  by_cases hpk : p ≤ k
  · have h1 : ¬ ((min k buf.length : Nat) : Int) < ((pos + n * wireSize ty : Nat) : Int) := by
      omega
    rw [if_neg h1, if_pos hpk, hx, hp, List.drop_take, List.take_take]
    have : min (n * wireSize ty) (k - pos) = n * wireSize ty := by omega
    rw [this]
  · have h1 : ((min k buf.length : Nat) : Int) < ((pos + n * wireSize ty : Nat) : Int) := by
      omega
    rw [if_pos h1, if_neg hpk]

theorem unpackEventos_take (alloc : Allocator) (j : Nat) :
    ∀ (buf : List Byte) (pos : Nat) (es : List Evento)
    (p k : Nat), k ≤ INT_MAX → pos ≤ k → unpackEventos alloc j buf pos = .ok (es, p) →
      unpackEventos alloc j (buf.take k) pos
        = if p ≤ k then .ok (es, p) else .error .undefined := by
  induction j with
  | zero =>
    intro buf pos es p k hki hk h
    simp only [unpackEventos, Except.ok.injEq, Prod.mk.injEq] at h
    obtain ⟨h1, h2⟩ := h
    subst h1 h2
    simp [unpackEventos, hk]
  | succ j ih =>
    intro buf pos es p k hki hk h
    simp only [unpackEventos] at h
    split at h
    · cases h
    · rename_i c p1 h1
      split at h
      · cases h
      · rename_i hn
        split at h
        · cases h
        · rename_i ev p2 h2
          split at h
          · cases h
          · rename_i es1 p3 h3
            simp only [Except.ok.injEq, Prod.mk.injEq] at h
            obtain ⟨he, hp⟩ := h
            subst he hp
            obtain ⟨_, _, hp2, _, _⟩ := MPI_Unpack_ok _ _ _ _ _ _ h2
            obtain ⟨_, _, hle, _, _⟩ := unpackEventos_sized _ _ _ _ _ _ h3
            simp only [unpackEventos, MPI_Unpack_take _ _ _ _ _ _ k hki h1]
            by_cases hk1 : p1 ≤ k
            · simp only [if_pos hk1, hn, MPI_Unpack_take _ _ _ _ _ _ k hki h2]
              by_cases hk2 : p2 ≤ k
              · simp only [if_pos hk2, ih _ _ _ _ k hki hk2 h3]
                by_cases hk3 : p3 ≤ k
                · simp only [if_pos hk3]
                · simp only [if_neg hk3]
              · have : ¬ p3 ≤ k := by omega
                simp only [if_neg hk2, if_neg this]
            · have : ¬ p3 ≤ k := by omega
              simp only [if_neg hk1, if_neg this]

theorem unpackTraza_take (alloc : Allocator) (buf : List Byte) (pos : Nat) (t : Traza)
    (p k : Nat) (hki : k ≤ INT_MAX) (h : unpackTraza alloc buf pos = .ok (t, p)) :
    unpackTraza alloc (buf.take k) pos
      = if p ≤ k then .ok (t, p) else .error .undefined := by
  simp only [unpackTraza] at h
  split at h
  · cases h
  · rename_i ce p1 h1
    split at h
    · cases h
    · rename_i id p2 h2
      split at h
      · cases h
      · rename_i rv p3 h3
        split at h
        · cases h
        · rename_i hn1
          split at h
          · cases h
          · rename_i nm p4 h4
            split at h
            · cases h
            · rename_i hn2
              split at h
              · cases h
              · rename_i es p5 h5
                simp only [Except.ok.injEq, Prod.mk.injEq] at h
                obtain ⟨he, hp⟩ := h
                subst he hp
                obtain ⟨_, _, hp2, _, _⟩ := MPI_Unpack_ok _ _ _ _ _ _ h2
                obtain ⟨_, _, hp3, _, _⟩ := MPI_Unpack_ok _ _ _ _ _ _ h3
                obtain ⟨_, _, hp4, _, _⟩ := MPI_Unpack_ok _ _ _ _ _ _ h4
                obtain ⟨_, _, hle, _, _⟩ := unpackEventos_sized _ _ _ _ _ _ h5
                simp only [unpackTraza, MPI_Unpack_take _ _ _ _ _ _ k hki h1]
                by_cases hk1 : p1 ≤ k
                · simp only [if_pos hk1, MPI_Unpack_take _ _ _ _ _ _ k hki h2]
                  by_cases hk2 : p2 ≤ k
                  · simp only [if_pos hk2, MPI_Unpack_take _ _ _ _ _ _ k hki h3]
                    by_cases hk3 : p3 ≤ k
                    · simp only [if_pos hk3, hn1, MPI_Unpack_take _ _ _ _ _ _ k hki h4]
                      by_cases hk4 : p4 ≤ k
                      · simp only [if_pos hk4, hn2, unpackEventos_take _ _ _ _ _ _ k hki hk4 h5]
                        by_cases hk5 : p5 ≤ k
                        · simp only [if_pos hk5]
                        · simp only [if_neg hk5]
                      · have : ¬ p5 ≤ k := by omega
                        simp only [if_neg hk4, if_neg this]
                    · have : ¬ p5 ≤ k := by omega
                      simp only [if_neg hk3, if_neg this]
                  · have : ¬ p5 ≤ k := by omega
                    simp only [if_neg hk2, if_neg this]
                · have : ¬ p5 ≤ k := by omega
                  simp only [if_neg hk1, if_neg this]

theorem unpackTrazas_take (alloc : Allocator) (j : Nat) :
    ∀ (buf : List Byte) (pos : Nat) (ts : List Traza)
    (p k : Nat), k ≤ INT_MAX → pos ≤ k → unpackTrazas alloc j buf pos = .ok (ts, p) →
      unpackTrazas alloc j (buf.take k) pos
        = if p ≤ k then .ok (ts, p) else .error .undefined := by
  induction j with
  | zero =>
    intro buf pos ts p k hki hk h
    simp only [unpackTrazas, Except.ok.injEq, Prod.mk.injEq] at h
    obtain ⟨h1, h2⟩ := h
    subst h1 h2
    simp [unpackTrazas, hk]
  | succ j ih =>
    intro buf pos ts p k hki hk h
    simp only [unpackTrazas] at h
    split at h
    · cases h
    · rename_i t p1 h1
      split at h
      · cases h
      · rename_i ts1 p2 h2
        simp only [Except.ok.injEq, Prod.mk.injEq] at h
        obtain ⟨he, hp⟩ := h
        subst he hp
        obtain ⟨_, _, hle, _, _⟩ := unpackTrazas_sized _ _ _ _ _ _ h2
        simp only [unpackTrazas, unpackTraza_take _ _ _ _ _ k hki h1]
        by_cases hk1 : p1 ≤ k
        · simp only [if_pos hk1, ih _ _ _ _ k hki hk1 h2]
          by_cases hk2 : p2 ≤ k
          · simp only [if_pos hk2]
          · simp only [if_neg hk2]
        · have : ¬ p2 ≤ k := by omega
          simp only [if_neg hk1, if_neg this]

/-- A successful run of the reader, replayed on the first `k` bytes of the
buffer: the same result if the run consumed at most `k` bytes; otherwise the
run reaches an `MPI_Unpack` that asks for more than is left. -/
theorem unpackRun_take (alloc : Allocator) (buf : List Byte) (outcount : Int)
    (data : List Traza) (p k : Nat) (hki : k ≤ INT_MAX)
    (h : unpackRun alloc buf = .ok (outcount, data, p)) :
    unpackRun alloc (buf.take k)
      = if p ≤ k then .ok (outcount, data, p) else .error .undefined := by
  simp only [unpackRun] at h
  split at h
  · cases h
  · rename_i c p1 h1
    split at h
    · cases h
    · rename_i hneg
      split at h
      · cases h
      · rename_i hn
        split at h
        · cases h
        · rename_i ts p2 h2
          simp only [Except.ok.injEq, Prod.mk.injEq] at h
          obtain ⟨ho, hd, hp⟩ := h
          subst ho hd hp
          obtain ⟨_, _, hle, _, _⟩ := unpackTrazas_sized _ _ _ _ _ _ h2
          simp only [unpackRun, MPI_Unpack_take _ _ _ _ _ _ k hki h1]
          by_cases hk1 : p1 ≤ k
          · simp only [if_pos hk1, if_neg hneg, hn, unpackTrazas_take _ _ _ _ _ _ k hki hk1 h2]
            by_cases hk2 : p2 ≤ k
            · simp only [if_pos hk2]
            · simp only [if_neg hk2]
          · have : ¬ p2 ≤ k := by omega
            simp only [if_neg hk1, if_neg this]

/-! ## The reader under two runtimes -/

theorem newArray_cases (alloc : Allocator) (site : Site) (n : Nat) :
    newArray alloc site n = .ok () ∨ newArray alloc site n = .error .thrown := by
  unfold newArray
  split
  · exact Or.inl rfl
  · exact Or.inr rfl

/-- The inner loop of the reader under two runtimes: the same outcome, unless
under one of them a `new` expression throws. -/
theorem unpackEventos_alloc (a1 a2 : Allocator) (k : Nat) : ∀ (buf : List Byte) (pos : Nat),
    unpackEventos a2 k buf pos = unpackEventos a1 k buf pos
      ∨ unpackEventos a2 k buf pos = .error .thrown
      ∨ unpackEventos a1 k buf pos = .error .thrown := by
  induction k with
  | zero => intro buf pos; exact Or.inl rfl
  | succ k ih =>
    intro buf pos
    rcases hx : MPI_Unpack buf pos 1 .MPI_UNSIGNED_CHAR with e | ⟨c, p1⟩
    · simp [unpackEventos, hx]
    · rcases newArray_cases a1 .evento (leValue c) with hn1 | hn1
        <;> rcases newArray_cases a2 .evento (leValue c) with hn2 | hn2
      · rcases hy : MPI_Unpack buf p1 (leValue c) .MPI_CHAR with e | ⟨ev, p2⟩
        · simp [unpackEventos, hx, hn1, hn2, hy]
        · rcases ih buf p2 with h | h | h
          · simp [unpackEventos, hx, hn1, hn2, hy, h]
          · simp [unpackEventos, hx, hn1, hn2, hy, h]
          · simp [unpackEventos, hx, hn1, hn2, hy, h]
      · simp [unpackEventos, hx, hn1, hn2]
      · simp [unpackEventos, hx, hn1, hn2]
      · simp [unpackEventos, hx, hn1, hn2]

theorem unpackTraza_alloc (a1 a2 : Allocator) (buf : List Byte) (pos : Nat) :
    unpackTraza a2 buf pos = unpackTraza a1 buf pos
      ∨ unpackTraza a2 buf pos = .error .thrown
      ∨ unpackTraza a1 buf pos = .error .thrown := by
  rcases h1 : MPI_Unpack buf pos 1 .MPI_UNSIGNED with e | ⟨ce, p1⟩
  · simp [unpackTraza, h1]
  · rcases h2 : MPI_Unpack buf p1 1 .MPI_UNSIGNED with e | ⟨id, p2⟩
    · simp [unpackTraza, h1, h2]
    · rcases h3 : MPI_Unpack buf p2 1 .MPI_UNSIGNED_CHAR with e | ⟨rv, p3⟩
      · simp [unpackTraza, h1, h2, h3]
      · rcases newArray_cases a1 .nombre (leValue ce) with hn1 | hn1
          <;> rcases newArray_cases a2 .nombre (leValue ce) with hn2 | hn2
        · rcases h4 : MPI_Unpack buf p3 (leValue ce) .MPI_CHAR with e | ⟨nm, p4⟩
          · simp [unpackTraza, h1, h2, h3, hn1, hn2, h4]
          · rcases newArray_cases a1 .eventos (leValue ce) with hm1 | hm1
              <;> rcases newArray_cases a2 .eventos (leValue ce) with hm2 | hm2
            · rcases unpackEventos_alloc a1 a2 (leValue ce) buf p4 with h | h | h
              · simp [unpackTraza, h1, h2, h3, hn1, hn2, h4, hm1, hm2, h]
              · simp [unpackTraza, h1, h2, h3, hn1, hn2, h4, hm1, hm2, h]
              · simp [unpackTraza, h1, h2, h3, hn1, hn2, h4, hm1, hm2, h]
            · simp [unpackTraza, h1, h2, h3, hn1, hn2, h4, hm1, hm2]
            · simp [unpackTraza, h1, h2, h3, hn1, hn2, h4, hm1, hm2]
            · simp [unpackTraza, h1, h2, h3, hn1, hn2, h4, hm1, hm2]
        · simp [unpackTraza, h1, h2, h3, hn1, hn2]
        · simp [unpackTraza, h1, h2, h3, hn1, hn2]
        · simp [unpackTraza, h1, h2, h3, hn1, hn2]

theorem unpackTrazas_alloc (a1 a2 : Allocator) (k : Nat) : ∀ (buf : List Byte) (pos : Nat),
    unpackTrazas a2 k buf pos = unpackTrazas a1 k buf pos
      ∨ unpackTrazas a2 k buf pos = .error .thrown
      ∨ unpackTrazas a1 k buf pos = .error .thrown := by
  induction k with
  | zero => intro buf pos; exact Or.inl rfl
  | succ k ih =>
    intro buf pos
    rcases unpackTraza_alloc a1 a2 buf pos with h | h | h
    · rcases hx : unpackTraza a1 buf pos with e | ⟨t, p1⟩
      · simp [unpackTrazas, h, hx]
      · rcases ih buf p1 with g | g | g
        · simp [unpackTrazas, h, hx, g]
        · simp [unpackTrazas, h, hx, g]
        · simp [unpackTrazas, h, hx, g]
    · simp [unpackTrazas, h]
    · simp [unpackTrazas, h]

/-- The reader under two runtimes: the same outcome, unless under one of them
a `new` expression throws. -/
theorem unpack_plista_alloc (a1 a2 : Allocator) (buf : List Byte) :
    unpack_plista a2 buf = unpack_plista a1 buf
      ∨ unpack_plista a2 buf = .error .thrown
      ∨ unpack_plista a1 buf = .error .thrown := by
  rcases h1 : MPI_Unpack buf 0 1 .MPI_INT with e | ⟨c, p1⟩
  · simp [unpack_plista, unpackRun, h1]
  · by_cases hneg : decInt c < 0
    · simp [unpack_plista, unpackRun, h1, hneg]
    · rcases newArray_cases a1 .trazas (decInt c).toNat with hn1 | hn1
        <;> rcases newArray_cases a2 .trazas (decInt c).toNat with hn2 | hn2
      · rcases unpackTrazas_alloc a1 a2 (decInt c).toNat buf p1 with h | h | h
        · simp [unpack_plista, unpackRun, h1, hneg, hn1, hn2, h]
        · simp [unpack_plista, unpackRun, h1, hneg, hn1, hn2, h]
        · simp [unpack_plista, unpackRun, h1, hneg, hn1, hn2, h]
      · simp [unpack_plista, unpackRun, h1, hneg, hn1, hn2]
      · simp [unpack_plista, unpackRun, h1, hneg, hn1, hn2]
      · simp [unpack_plista, unpackRun, h1, hneg, hn1, hn2]

/-! ## The encoder output as a wire layout -/

theorem eventoWire_of_sized (e : Evento) (h : e.Sized) :
    eventoWire e = eventLayout e.evento := by
  simp [eventoWire, eventLayout, h.1]

theorem trazaWire_of_sized (t : Traza) (h : t.Sized) :
    trazaWire t = traceLayout t.record := by
  obtain ⟨h1, h2, h3⟩ := h
  have he : (t.eventos.take t.cantEventos).flatMap eventoWire
      = (t.eventos.map Evento.evento).flatMap eventLayout := by
    rw [← h2, List.take_length]
    generalize t.eventos = es at h3
    induction es with
    | nil => rfl
    | cons e es ih =>
      simp only [List.flatMap_cons, List.map_cons]
      rw [eventoWire_of_sized e (h3 e (by simp)), ih (fun x hx => h3 x (by simp [hx]))]
  simp only [trazaWire, traceLayout, Traza.record, he]
  rw [← h1, List.take_length]

theorem record_wellFormed (t : Traza) (h : t.Sized)
    (ht : t.cantEventos < 4294967296 ∧ t.idTraza < 4294967296) : t.record.WellFormed := by
  obtain ⟨h1, h2, h3⟩ := h
  refine ⟨ht.1, ht.2, h1, by simp [Traza.record, h2], ?_⟩
  intro c hc
  simp only [Traza.record, List.mem_map] at hc
  obtain ⟨e, he, rfl⟩ := hc
  have := h3 e he
  unfold Evento.Sized at this
  omega

theorem record_decoded (t : Traza) (h : t.Sized) : t.record.decoded = t := by
  obtain ⟨h1, h2, h3⟩ := h
  have he : (t.eventos.map Evento.evento).map eventOf = t.eventos := by
    generalize t.eventos = es at h3
    induction es with
    | nil => rfl
    | cons e es ih =>
      simp only [List.map_cons]
      rw [ih (fun x hx => h3 x (by simp [hx]))]
      have := (h3 e (by simp)).1
      cases e
      simp_all [eventOf]
  cases t
  simp only [WireTrace.decoded, Traza.record, Traza.mk.injEq] at he ⊢
  refine ⟨trivial, he, trivial, ?_, trivial⟩
  rename_i b _
  cases b <;> simp [boolByte]

theorem readable_of_invariants (incount : Int) (data : List Traza)
    (h : Invariants incount data) : Readable incount data := by
  obtain ⟨h0, h1, h2⟩ := h
  refine ⟨by omega, ?_⟩
  intro t ht
  have hs := h2 t (List.mem_of_mem_take ht)
  refine ⟨by rw [hs.1], by rw [hs.2.1], ?_⟩
  intro e he
  have := (hs.2.2 e (List.mem_of_mem_take he)).1
  omega

theorem wireFormat_of_invariants (incount : Int) (data : List Traza)
    (h : Invariants incount data) : wireFormat incount data = layout (data.map Traza.record) := by
  obtain ⟨h0, h1, h2⟩ := h
  have hn : incount.toNat = data.length := by omega
  simp only [wireFormat, layout, hn, List.take_length, List.length_map, h1]
  congr 1
  generalize data = ts at h2
  induction ts with
  | nil => rfl
  | cons t ts ih =>
    simp only [List.flatMap_cons, List.map_cons]
    rw [trazaWire_of_sized t (h2 t (by simp)), ih (fun x hx => h2 x (by simp [hx]))]

/-- A run of `pack_plista` that reaches the last statement read a readable
collection of at most `INT_MAX` wire bytes, holds its wire format and is
tight. -/
theorem packRun_tight (incount : Int) (data : List Traza) (buf0 : List Byte) (s : Packer)
    (h : packRun incount data buf0 = .ok s) :
    (Readable incount data ∧ Fits incount data) ∧ s.buf = wireFormat incount data
      ∧ Tight s := by
  by_cases hr : Readable incount data ∧ Fits incount data
  · obtain ⟨s1, h1, hb, ht⟩ := (packRun_spec incount data buf0).1 hr
    rw [h1] at h
    cases h
    exact ⟨hr, hb, ht⟩
  · rw [(packRun_spec incount data buf0).2 hr] at h
    cases h

/-- The result of `pack_plista` on every input. -/
theorem pack_plista_eq (incount : Int) (data : List Traza) (buf0 : List Byte) :
    pack_plista incount data buf0
      = if Readable incount data ∧ Fits incount data then .ok (wireFormat incount data)
        else .error .undefined := by
  by_cases hr : Readable incount data ∧ Fits incount data
  · obtain ⟨s1, h1, hb, ht⟩ := (packRun_spec incount data buf0).1 hr
    simp only [pack_plista, h1, if_pos hr, ← ht.1, vresize_self, hb]
  · simp only [pack_plista, (packRun_spec incount data buf0).2 hr, if_neg hr]

theorem unpack_plista_layout (alloc : Allocator) (ws : List WireTrace) (rest : List Byte)
    (hn : ws.length < 2147483648) (hw : ∀ w ∈ ws, w.WellFormed) (hg : Granted alloc ws)
    (hfit : (layout ws ++ rest).length ≤ INT_MAX) :
    unpack_plista alloc (layout ws ++ rest)
      = .ok ((ws.length : Int), ws.map WireTrace.decoded) := by
  simp only [unpack_plista, unpackRun_layout alloc ws rest hn hw hg hfit]

theorem map_record_decoded (data : List Traza) (h : ∀ t ∈ data, t.Sized) :
    (data.map Traza.record).map WireTrace.decoded = data := by
  induction data with
  | nil => rfl
  | cons t ts ih =>
    simp only [List.map_cons]
    rw [record_decoded t (h t (by simp)), ih (fun x hx => h x (by simp [hx]))]

/-- The reader on the wire format of a collection that satisfies the
invariants, followed by arbitrary bytes, in a buffer of at most `INT_MAX`
bytes and with every allocation granted. -/
theorem unpack_wireFormat (alloc : Allocator) (incount : Int) (data : List Traza)
    (rest : List Byte) (hi : Invariants incount data) (ht : Typed incount data)
    (hg : Granted alloc (data.map Traza.record))
    (hfit : (wireFormat incount data ++ rest).length ≤ INT_MAX) :
    unpackRun alloc (wireFormat incount data ++ rest)
      = .ok (incount, data, (wireFormat incount data).length) := by
  rw [wireFormat_of_invariants incount data hi] at hfit ⊢
  have hn : (data.map Traza.record).length < 2147483648 := by
    have := hi.2.1
    have := ht.1
    simp only [List.length_map]
    omega
  have hw : ∀ w ∈ data.map Traza.record, w.WellFormed := by
    intro w hw
    simp only [List.mem_map] at hw
    obtain ⟨t, htm, rfl⟩ := hw
    exact record_wellFormed t (hi.2.2 t htm) (ht.2 t htm)
  rw [unpackRun_layout alloc _ rest hn hw hg hfit, map_record_decoded data hi.2.2]
  simp [hi.2.1]

/-! ## Lengths, and contents beyond the counts -/

theorem length_flatMap_eventLayout (cs : List (List Byte)) :
    (cs.flatMap eventLayout).length = (cs.map fun c => 1 + c.length).sum := by
  induction cs with
  | nil => rfl
  | cons c cs ih =>
    simp only [List.flatMap_cons, List.length_append, ih, List.map_cons, List.sum_cons,
      eventLayout, List.length_cons]
    omega

theorem length_traceLayout (w : WireTrace) :
    (traceLayout w).length
      = 4 + 4 + 1 + w.name.length + (w.events.map fun c => 1 + c.length).sum := by
  simp only [traceLayout, List.length_append, le32_length, List.length_singleton,
    length_flatMap_eventLayout]

theorem length_wireFormat (incount : Int) (data : List Traza) (hi : Invariants incount data) :
    (wireFormat incount data).length
      = 4 + (data.map fun t =>
          4 + 4 + 1 + t.cantEventos + (t.eventos.map fun e => 1 + e.cant).sum).sum := by
  rw [wireFormat_of_invariants incount data hi]
  simp only [layout, List.length_append, encInt_length]
  congr 1
  have h2 := hi.2.2
  generalize data = ts at h2
  induction ts with
  | nil => rfl
  | cons t ts ih =>
    simp only [List.map_cons, List.flatMap_cons, List.length_append, List.sum_cons,
      ih (fun x hx => h2 x (by simp [hx])), length_traceLayout]
    congr 1
    obtain ⟨h1, _, h3⟩ := h2 t (by simp)
    simp only [Traza.record, h1, List.map_map]
    congr 2
    apply List.map_congr_left
    intro e he
    simp [(h3 e he).1]

theorem eventoWire_clip (e : Evento) : eventoWire e.clip = eventoWire e := by
  simp [eventoWire, Evento.clip, List.take_take]

theorem flatMap_eventoWire_clip (k : Nat) (es : List Evento) :
    ((es.map Evento.clip).take k).flatMap eventoWire = (es.take k).flatMap eventoWire := by
  induction es generalizing k with
  | nil => simp
  | cons e es ih =>
    cases k with
    | zero => simp
    | succ k => simp [eventoWire_clip, ih]

theorem trazaWire_clip (t : Traza) : trazaWire t.clip = trazaWire t := by
  simp [trazaWire, Traza.clip, flatMap_eventoWire_clip]

theorem wireFormat_clip (incount : Int) (data : List Traza) :
    wireFormat incount (data.map Traza.clip) = wireFormat incount data := by
  simp only [wireFormat]
  congr 1
  generalize incount.toNat = k
  induction data generalizing k with
  | nil => simp
  | cons t ts ih =>
    cases k with
    | zero => simp
    | succ k => simp [trazaWire_clip, ih]

theorem readableEventos_clip (k : Nat) (es : List Evento) (h : ReadableEventos k es) :
    ReadableEventos k (es.map Evento.clip) := by
  induction es generalizing k with
  | nil => simpa [ReadableEventos] using h
  | cons e es ih =>
    cases k with
    | zero => simp [ReadableEventos]
    | succ k =>
      rw [List.map_cons, readableEventos_cons]
      rw [readableEventos_cons] at h
      exact ⟨by simp [Evento.clip, h.1], ih k h.2⟩

theorem readable_clip (incount : Int) (data : List Traza) (h : Readable incount data) :
    Readable incount (data.map Traza.clip) := by
  obtain ⟨h1, h2⟩ := h
  refine ⟨by simpa using h1, ?_⟩
  intro t ht
  rw [← List.map_take, List.mem_map] at ht
  obtain ⟨t0, ht0, rfl⟩ := ht
  obtain ⟨ha, hb⟩ := h2 t0 ht0
  exact ⟨ha, readableEventos_clip _ _ hb⟩

/-! ## Consequences of the grouping of the steps -/

/-- Every write recorded in grouped steps fits the buffer it is written to. -/
theorem stepsGrouped_fits (c : Nat) (l : List Step) (hl : stepsGrouped c l = true) :
    ∀ f p n out, Step.packed f p n out ∈ l → p + n ≤ out := by
  induction c, l using stepsGrouped.induct with
  | case1 c => intro f p n out h; simp at h
  | case2 c p0 size old q n0 out0 q2 n2 out2 rest2 ih =>
    unfold stepsGrouped at hl
    simp only [if_true, Bool.and_eq_true, beq_iff_eq] at hl
    intro f p n out h
    simp only [List.mem_cons, Step.packed.injEq, reduceCtorEq, false_or] at h
    rcases h with ⟨rfl, rfl, rfl, rfl⟩ | ⟨rfl, rfl, rfl, rfl⟩ | h
    · have := hl.1
      omega
    · have := hl.1
      omega
    · exact ih hl.2 f p n out h
  | case3 c p0 size old q n0 out0 rest hne =>
    exfalso
    unfold stepsGrouped at hl
    simp only [if_true] at hl
    cases hl
  | case4 c p0 size old f0 q n0 out0 rest hf ih =>
    unfold stepsGrouped at hl
    simp only [hf, if_false, Bool.and_eq_true, beq_iff_eq] at hl
    intro f p n out h
    simp only [List.mem_cons, Step.packed.injEq, reduceCtorEq, false_or] at h
    rcases h with ⟨rfl, rfl, rfl, rfl⟩ | h
    · have := hl.1
      omega
    · exact ih hl.2 f p n out h
  | case5 c l h1 h2 =>
    exfalso
    unfold stepsGrouped at hl
    split at hl
    · exact h1 rfl
    · exact h2 _ _ _ _ _ _ _ _ rfl
    · simp at hl

/-- Grouped steps that are not empty begin with a growth at their start cursor
of a buffer that ends there. -/
theorem stepsGrouped_head (c : Nat) (l : List Step) (hl : stepsGrouped c l = true)
    (hne : l ≠ []) : ∃ size rest, l = Step.resized c size c :: rest := by
  unfold stepsGrouped at hl
  split at hl
  · exact absurd rfl hne
  · rename_i p size old f q n out rest
    split at hl
    · split at hl
      · simp only [Bool.and_eq_true, beq_iff_eq] at hl
        obtain ⟨⟨⟨⟨⟨⟨⟨⟨⟨hp, ho⟩, _⟩, _⟩, _⟩, _⟩, _⟩, _⟩, _⟩, _⟩ := hl
        subst hp ho
        exact ⟨_, _, rfl⟩
      · cases hl
    · simp only [Bool.and_eq_true, beq_iff_eq] at hl
      obtain ⟨⟨⟨⟨⟨hp, ho⟩, _⟩, _⟩, _⟩, _⟩ := hl
      subst hp ho
      exact ⟨_, _, rfl⟩
  · cases hl

theorem steps_trans (a b c : List Step) (h1 : ∃ l, b = a ++ l) (h2 : ∃ l, c = b ++ l) :
    ∃ l, c = a ++ l := by
  obtain ⟨l1, rfl⟩ := h1
  obtain ⟨l2, rfl⟩ := h2
  exact ⟨l1 ++ l2, by rw [List.append_assoc]⟩

/-- A write only adds to the record of steps. -/
theorem MPI_Pack_steps (f : Field) (inbuf : List Byte) (n : Nat) (ty : MPI_Datatype)
    (s s1 : Packer) (h : MPI_Pack f inbuf n ty s = .ok s1) :
    ∃ l, s1.steps = s.steps ++ l := by
  unfold MPI_Pack at h
  split at h
  · cases h
  · split at h
    · cases h
    · split at h
      · cases h
      · simp only [Except.ok.injEq] at h
        subst h
        exact ⟨_, rfl⟩

/-- A growth only adds to the record of steps. -/
theorem grow_steps (n : Nat) (ty : MPI_Datatype) (s g : Packer) (h : grow n ty s = .ok g) :
    ∃ l, g.steps = s.steps ++ l := by
  unfold grow at h
  split at h
  · cases h
  · split at h
    · cases h
    · simp only [Except.ok.injEq] at h
      subst h
      exact ⟨_, rfl⟩

theorem MPI_Pack_grow_steps (f : Field) (inbuf : List Byte) (n m : Nat)
    (ty : MPI_Datatype) (s g s1 : Packer) (hg : grow m ty s = .ok g)
    (h : MPI_Pack f inbuf n ty g = .ok s1) : ∃ l, s1.steps = s.steps ++ l :=
  steps_trans _ _ _ (grow_steps _ _ _ _ hg) (MPI_Pack_steps _ _ _ _ _ _ h)

theorem packEventos_steps (k : Nat) : ∀ (es : List Evento) (s s1 : Packer),
    packEventos k es s = .ok s1 → ∃ l, s1.steps = s.steps ++ l := by
  induction k with
  | zero =>
    intro es s s1 h
    simp only [packEventos, Except.ok.injEq] at h
    subst h
    exact ⟨[], by simp⟩
  | succ k ih =>
    intro es s s1 h
    cases es with
    | nil => simp [packEventos] at h
    | cons e es =>
      simp only [packEventos] at h
      split at h
      · cases h
      · rename_i ga hga
        split at h
        · cases h
        · rename_i sa ha
          split at h
          · cases h
          · rename_i gb hgb
            split at h
            · cases h
            · rename_i sb hb
              exact steps_trans _ _ _ (steps_trans _ _ _
                (MPI_Pack_grow_steps _ _ _ _ _ _ _ _ hga ha)
                (MPI_Pack_grow_steps _ _ _ _ _ _ _ _ hgb hb)) (ih es sb s1 h)

theorem packTraza_steps (t : Traza) (s s1 : Packer) (h : packTraza t s = .ok s1) :
    ∃ l, s1.steps = s.steps ++ l := by
  simp only [packTraza] at h
  split at h
  · cases h
  · rename_i ga hga
    split at h
    · cases h
    · rename_i sa ha
      split at h
      · cases h
      · rename_i sb hb
        split at h
        · cases h
        · rename_i gc hgc
          split at h
          · cases h
          · rename_i sc hc
            split at h
            · cases h
            · rename_i gd hgd
              split at h
              · cases h
              · rename_i sd hd
                exact steps_trans _ _ _ (steps_trans _ _ _ (steps_trans _ _ _
                  (steps_trans _ _ _
                    (MPI_Pack_grow_steps _ _ _ _ _ _ _ _ hga ha) (MPI_Pack_steps _ _ _ _ _ _ hb))
                  (MPI_Pack_grow_steps _ _ _ _ _ _ _ _ hgc hc))
                  (MPI_Pack_grow_steps _ _ _ _ _ _ _ _ hgd hd))
                  (packEventos_steps _ _ _ _ h)

theorem packTrazas_steps (k : Nat) : ∀ (ts : List Traza) (s s1 : Packer),
    packTrazas k ts s = .ok s1 → ∃ l, s1.steps = s.steps ++ l := by
  induction k with
  | zero =>
    intro ts s s1 h
    simp only [packTrazas, Except.ok.injEq] at h
    subst h
    exact ⟨[], by simp⟩
  | succ k ih =>
    intro ts s s1 h
    cases ts with
    | nil => simp [packTrazas] at h
    | cons t ts =>
      simp only [packTrazas] at h
      split at h
      · cases h
      · rename_i sa ha
        exact steps_trans _ _ _ (packTraza_steps _ _ _ ha) (ih ts sa s1 h)

/-- The first two steps of every run that reaches the last statement. -/
theorem packRun_first_steps (incount : Int) (data : List Traza) (buf0 : List Byte)
    (s : Packer) (h : packRun incount data buf0 = .ok s) :
    ∃ rest, s.steps = Step.resized 0 4 0 :: Step.packed .incount 0 4 4 :: rest := by
  have hg := grow_ok 1 .MPI_INT { buf := vclear buf0, pos := 0, steps := [] } rfl
    (by unfold INT_MAX; simp [wireSize])
  have h1 := MPI_Pack_grown .incount (encInt incount) 1 .MPI_INT
    { buf := vclear buf0, pos := 0, steps := [] }
    ([] ++ [Step.resized 0 (1 * wireSize .MPI_INT) 0]) rfl
    (by simp [wireSize, encInt_length]) (by unfold INT_MAX; simp [wireSize])
  simp only [packRun, hg, h1] at h
  obtain ⟨l, hl⟩ := packTrazas_steps _ _ _ _ h
  exact ⟨l, by rw [hl]; rfl⟩

/-! ## What a successful decode has consumed -/

/-- The bytes a successful read consumes lie right behind the cursor. -/
theorem MPI_Unpack_consumed (buf : List Byte) (pos n : Nat) (ty : MPI_Datatype)
    (x : List Byte) (p : Nat) (h : MPI_Unpack buf pos n ty = .ok (x, p)) :
    buf.take p = buf.take pos ++ x := by
  obtain ⟨hx, _, hp, _, _⟩ := MPI_Unpack_ok _ _ _ _ _ _ h
  rw [hp, List.take_add, hx]

theorem le32_leValue (c : List Byte) (h : c.length = 4) :
    le32 (leValue c) = c ∧ leValue c < 4294967296 := by
  match c, h with
  | [a, b, d, e], _ =>
    have ha := a.isLt
    have hb := b.isLt
    have hd := d.isLt
    have he := e.isLt
    refine ⟨?_, ?_⟩
    · simp only [le32, leValue, byteOf, List.cons.injEq, and_true]
      refine ⟨Fin.ext ?_, Fin.ext ?_, Fin.ext ?_, Fin.ext ?_⟩ <;> simp only [] <;> omega
    · simp only [leValue]
      omega

theorem byteOf_leValue (c : List Byte) (h : c.length = 1) :
    ∃ b, c = [b] ∧ leValue c = b.val ∧ byteOf (leValue c) = b := by
  match c, h with
  | [b], _ =>
    refine ⟨b, rfl, by simp [leValue], ?_⟩
    apply Fin.ext
    simp [leValue, byteOf, Nat.mod_eq_of_lt b.isLt]

theorem encInt_decInt (c : List Byte) (h : c.length = 4) (h0 : 0 ≤ decInt c) :
    encInt (decInt c) = c ∧ decInt c < 2147483648 := by
  obtain ⟨h1, h2⟩ := le32_leValue c h
  unfold decInt at h0 ⊢
  by_cases hv : leValue c < 2147483648
  · simp only [hv, if_true]
    refine ⟨?_, by omega⟩
    unfold encInt
    have : ((leValue c : Int) % 4294967296).toNat = leValue c := by omega
    rw [this, h1]
  · simp only [hv, if_false] at h0
    omega

/-- A successful run of the inner loop consumed the layout of the events it
returns. -/
theorem unpackEventos_inv (alloc : Allocator) (k : Nat) :
    ∀ (buf : List Byte) (pos : Nat) (es : List Evento)
    (p : Nat), unpackEventos alloc k buf pos = .ok (es, p) →
      ∃ cs : List (List Byte), es = cs.map eventOf ∧ cs.length = k
        ∧ (∀ c ∈ cs, c.length < 256)
        ∧ buf.take p = buf.take pos ++ cs.flatMap eventLayout := by
  induction k with
  | zero =>
    intro buf pos es p h
    simp only [unpackEventos, Except.ok.injEq, Prod.mk.injEq] at h
    obtain ⟨h1, h2⟩ := h
    subst h1 h2
    exact ⟨[], by simp⟩
  | succ k ih =>
    intro buf pos es p h
    simp only [unpackEventos] at h
    split at h
    · cases h
    · rename_i c p1 h1
      split at h
      · cases h
      · rename_i hn
        split at h
        · cases h
        · rename_i ev p2 h2
          split at h
          · cases h
          · rename_i es1 p3 h3
            simp only [Except.ok.injEq, Prod.mk.injEq] at h
            obtain ⟨he, hp⟩ := h
            subst he hp
            obtain ⟨_, hc1, _, _, _⟩ := MPI_Unpack_ok _ _ _ _ _ _ h1
            obtain ⟨_, hc2, _, _, _⟩ := MPI_Unpack_ok _ _ _ _ _ _ h2
            obtain ⟨b, hb, hv, hbyte⟩ := byteOf_leValue c (by simpa [wireSize] using hc1)
            obtain ⟨cs, hcs, hlen, hlt, htake⟩ := ih _ _ _ _ h3
            have hevlen : ev.length = leValue c := by simpa [wireSize] using hc2
            refine ⟨ev :: cs, ?_, by simp [hlen], ?_, ?_⟩
            · simp [eventOf, hcs, hevlen]
            · intro x hx
              simp only [List.mem_cons] at hx
              rcases hx with rfl | hx
              · rw [hevlen, hv]
                exact b.isLt
              · exact hlt x hx
            · rw [htake, MPI_Unpack_consumed _ _ _ _ _ _ h2, MPI_Unpack_consumed _ _ _ _ _ _ h1]
              subst hb
              simp [eventLayout, hevlen, hbyte]

/-- A successful run of the loop body consumed the layout of a well-formed
record, which decodes to the trace it returns. -/
theorem unpackTraza_inv (alloc : Allocator) (buf : List Byte) (pos : Nat) (t : Traza)
    (p : Nat) (h : unpackTraza alloc buf pos = .ok (t, p)) :
    ∃ w : WireTrace, w.WellFormed ∧ t = w.decoded
      ∧ buf.take p = buf.take pos ++ traceLayout w := by
  simp only [unpackTraza] at h
  split at h
  · cases h
  · rename_i ce p1 h1
    split at h
    · cases h
    · rename_i id p2 h2
      split at h
      · cases h
      · rename_i rv p3 h3
        split at h
        · cases h
        · rename_i hn1
          split at h
          · cases h
          · rename_i nm p4 h4
            split at h
            · cases h
            · rename_i hn2
              split at h
              · cases h
              · rename_i es p5 h5
                simp only [Except.ok.injEq, Prod.mk.injEq] at h
                obtain ⟨he, hp⟩ := h
                subst he hp
                obtain ⟨_, hc1, _, _, _⟩ := MPI_Unpack_ok _ _ _ _ _ _ h1
                obtain ⟨_, hc2, _, _, _⟩ := MPI_Unpack_ok _ _ _ _ _ _ h2
                obtain ⟨_, hc3, _, _, _⟩ := MPI_Unpack_ok _ _ _ _ _ _ h3
                obtain ⟨_, hc4, _, _, _⟩ := MPI_Unpack_ok _ _ _ _ _ _ h4
                obtain ⟨hce, hcelt⟩ := le32_leValue ce (by simpa [wireSize] using hc1)
                obtain ⟨hid, hidlt⟩ := le32_leValue id (by simpa [wireSize] using hc2)
                obtain ⟨r, hr, hrv, _⟩ := byteOf_leValue rv (by simpa [wireSize] using hc3)
                obtain ⟨cs, hcs, hlen, hlt, htake⟩ := unpackEventos_inv _ _ _ _ _ _ h5
                refine ⟨{ eventCount := leValue ce, traceId := leValue id, reviewed := r,
                          name := nm, events := cs }, ?_, ?_, ?_⟩
                · exact ⟨hcelt, hidlt, by simpa [wireSize] using hc4, hlen, hlt⟩
                · simp only [WireTrace.decoded, hcs, hrv, Traza.mk.injEq, true_and, and_true,
                    decide_eq_decide]
                  constructor
                  · intro hne heq
                    exact hne (by rw [heq]; rfl)
                  · intro hne heq
                    exact hne (Fin.ext heq)
                · rw [htake, MPI_Unpack_consumed _ _ _ _ _ _ h4,
                    MPI_Unpack_consumed _ _ _ _ _ _ h3, MPI_Unpack_consumed _ _ _ _ _ _ h2,
                    MPI_Unpack_consumed _ _ _ _ _ _ h1]
                  simp only [traceLayout, hce, hid, hr, List.append_assoc]

theorem unpackTrazas_inv (alloc : Allocator) (k : Nat) :
    ∀ (buf : List Byte) (pos : Nat) (ts : List Traza)
    (p : Nat), unpackTrazas alloc k buf pos = .ok (ts, p) →
      ∃ ws : List WireTrace, (∀ w ∈ ws, w.WellFormed) ∧ ts = ws.map WireTrace.decoded
        ∧ ws.length = k ∧ buf.take p = buf.take pos ++ ws.flatMap traceLayout := by
  induction k with
  | zero =>
    intro buf pos ts p h
    simp only [unpackTrazas, Except.ok.injEq, Prod.mk.injEq] at h
    obtain ⟨h1, h2⟩ := h
    subst h1 h2
    exact ⟨[], by simp⟩
  | succ k ih =>
    intro buf pos ts p h
    simp only [unpackTrazas] at h
    split at h
    · cases h
    · rename_i t p1 h1
      split at h
      · cases h
      · rename_i ts1 p2 h2
        simp only [Except.ok.injEq, Prod.mk.injEq] at h
        obtain ⟨he, hp⟩ := h
        subst he hp
        obtain ⟨w, hw, hd, htk⟩ := unpackTraza_inv _ _ _ _ _ h1
        obtain ⟨ws, hws, hds, hlen, htake⟩ := ih _ _ _ _ h2
        refine ⟨w :: ws, ?_, by simp [hd, hds], by simp [hlen], ?_⟩
        · intro x hx
          simp only [List.mem_cons] at hx
          rcases hx with rfl | hx
          · exact hw
          · exact hws x hx
        · rw [htake, htk]
          simp only [List.flatMap_cons, List.append_assoc]

/-- A successful run of the reader consumed a well-formed layout, which decodes
to what it returns. -/
theorem unpackRun_inv (alloc : Allocator) (buf : List Byte) (outcount : Int)
    (data : List Traza) (p : Nat) (h : unpackRun alloc buf = .ok (outcount, data, p)) :
    ∃ ws : List WireTrace, (∀ w ∈ ws, w.WellFormed) ∧ data = ws.map WireTrace.decoded
      ∧ outcount = (ws.length : Int) ∧ buf.take p = layout ws := by
  simp only [unpackRun] at h
  split at h
  · cases h
  · rename_i c p1 h1
    split at h
    · cases h
    · rename_i hneg
      split at h
      · cases h
      · rename_i hn
        split at h
        · cases h
        · rename_i ts p2 h2
          simp only [Except.ok.injEq, Prod.mk.injEq] at h
          obtain ⟨ho, hd, hp⟩ := h
          subst ho hd hp
          obtain ⟨_, hc1, _, _, _⟩ := MPI_Unpack_ok _ _ _ _ _ _ h1
          obtain ⟨henc, _⟩ := encInt_decInt c (by simpa [wireSize] using hc1) (by omega)
          obtain ⟨ws, hws, hds, hlen, htake⟩ := unpackTrazas_inv _ _ _ _ _ _ h2
          have hcnt : decInt c = (ws.length : Int) := by omega
          refine ⟨ws, hws, hds, hcnt, ?_⟩
          rw [htake, MPI_Unpack_consumed _ _ _ _ _ _ h1]
          simp only [layout, List.take_zero, List.nil_append, ← hcnt, henc]

theorem decoded_record (w : WireTrace) : w.decoded.record = w.canonical := by
  simp [WireTrace.decoded, Traza.record, WireTrace.canonical, List.map_map]
  have : Evento.evento ∘ eventOf = id := by
    funext c
    rfl
  rw [this, List.map_id]

theorem decoded_sized (w : WireTrace) (h : w.WellFormed) : w.decoded.Sized := by
  obtain ⟨_, _, h1, h2, h3⟩ := h
  refine ⟨h1, by simp [WireTrace.decoded, h2], ?_⟩
  intro e he
  simp only [WireTrace.decoded, List.mem_map] at he
  obtain ⟨c, hc, rfl⟩ := he
  have := h3 c hc
  exact ⟨rfl, by simp only [eventOf]; omega⟩

theorem canonical_of_flag (w : WireTrace) (h : w.reviewed = 0 ∨ w.reviewed = 1) :
    w.canonical = w := by
  cases w with
  | mk ec id r nm evs =>
    simp only [WireTrace.canonical, WireTrace.mk.injEq, true_and, and_true]
    simp only at h
    rcases h with rfl | rfl <;> rfl

theorem sameOrOne_refl (l : List Byte) : List.Forall₂ SameOrOne l l :=
  List.forall₂_same.mpr fun _ _ => Or.inl rfl

theorem sameOrOne_flag (r : Byte) : SameOrOne (boolByte (decide (r ≠ 0))) r := by
  by_cases h0 : r = 0
  · subst h0
    exact Or.inl rfl
  · by_cases h1 : r = 1
    · subst h1
      exact Or.inl rfl
    · exact Or.inr ⟨by simp [boolByte, h0], h0, h1⟩

theorem traceLayout_canonical (w : WireTrace) :
    List.Forall₂ SameOrOne (traceLayout w.canonical) (traceLayout w) := by
  simp only [traceLayout, WireTrace.canonical]
  exact List.rel_append (List.rel_append (List.rel_append (sameOrOne_refl _)
    (List.Forall₂.cons (sameOrOne_flag _) List.Forall₂.nil)) (sameOrOne_refl _))
    (sameOrOne_refl _)

theorem layout_canonical (ws : List WireTrace) :
    List.Forall₂ SameOrOne (layout (ws.map WireTrace.canonical)) (layout ws) := by
  simp only [layout, List.length_map]
  apply List.rel_append (sameOrOne_refl _)
  induction ws with
  | nil => exact List.Forall₂.nil
  | cons w ws ih =>
    simp only [List.map_cons, List.flatMap_cons]
    exact List.rel_append (traceLayout_canonical w) ih

/-- Packing what a successful decode returned gives the layout consumed, with
every reviewed byte made canonical. -/
theorem pack_decoded (ws : List WireTrace) (buf0 : List Byte)
    (hw : ∀ w ∈ ws, w.WellFormed) (hfit : (layout ws).length ≤ INT_MAX) :
    pack_plista (ws.length : Int) (ws.map WireTrace.decoded) buf0
      = .ok (layout (ws.map WireTrace.canonical)) := by
  have hi : Invariants (ws.length : Int) (ws.map WireTrace.decoded) := by
    refine ⟨by omega, by simp, ?_⟩
    intro t ht
    simp only [List.mem_map] at ht
    obtain ⟨w, hwm, rfl⟩ := ht
    exact decoded_sized w (hw w hwm)
  have hrec : Traza.record ∘ WireTrace.decoded = WireTrace.canonical := by
    funext w
    exact decoded_record w
  have hwf : wireFormat (ws.length : Int) (ws.map WireTrace.decoded)
      = layout (ws.map WireTrace.canonical) := by
    rw [wireFormat_of_invariants _ _ hi, List.map_map, hrec]
  have hf : Fits (ws.length : Int) (ws.map WireTrace.decoded) := by
    unfold Fits
    rw [hwf, (layout_canonical ws).length_eq]
    exact hfit
  rw [pack_plista_eq, if_pos ⟨readable_of_invariants _ _ hi, hf⟩, hwf]

/-! ## Buffers of more than `INT_MAX` bytes -/

/-- On a buffer whose size is not an `int`, between `2^31` and `2^32` bytes, the
size the reader hands to its first `MPI_Unpack` is negative. -/
theorem unpackRun_long (alloc : Allocator) (buf : List Byte) (h1 : INT_MAX < buf.length)
    (h2 : buf.length < 4294967296) : unpackRun alloc buf = .error .undefined := by
  unfold INT_MAX at h1
  have hs : sizeAsInt buf.length = (buf.length : Int) - 4294967296 := by
    unfold sizeAsInt
    rw [Nat.mod_eq_of_lt h2, if_neg (by omega)]
  have c1 : ¬ INT_MAX < 1 * wireSize .MPI_INT := by unfold INT_MAX; simp [wireSize]
  have c2 : sizeAsInt buf.length < ((0 + 1 * wireSize .MPI_INT : Nat) : Int) := by
    rw [hs]
    simp only [wireSize]
    omega
  simp only [unpackRun, MPI_Unpack, c1, c2, if_false, if_true]

theorem unpack_plista_long (alloc : Allocator) (buf : List Byte) (h1 : INT_MAX < buf.length)
    (h2 : buf.length < 4294967296) : unpack_plista alloc buf = .error .undefined := by
  simp only [unpack_plista, unpackRun_long alloc buf h1 h2]

theorem longTrace_sized : longTrace.Sized := by
  refine ⟨?_, ?_, ?_⟩
  · show (List.replicate manyEvents (0 : Byte)).length = manyEvents
    exact List.length_replicate _ _
  · show (List.replicate manyEvents ({ evento := [], cant := 0 } : Evento)).length = manyEvents
    exact List.length_replicate _ _
  · intro e he
    have he2 : e ∈ List.replicate manyEvents ({ evento := [], cant := 0 } : Evento) := he
    rw [List.mem_replicate] at he2
    rw [he2.2]
    exact ⟨rfl, Nat.zero_le _⟩

theorem longTrace_invariants : Invariants 1 [longTrace] ∧ Typed 1 [longTrace] := by
  refine ⟨⟨by omega, rfl, ?_⟩, by omega, ?_⟩
  · intro t ht
    rw [List.mem_singleton] at ht
    rw [ht]
    exact longTrace_sized
  · intro t ht
    rw [List.mem_singleton] at ht
    rw [ht]
    show manyEvents < 4294967296 ∧ 0 < 4294967296
    unfold manyEvents
    omega

theorem sum_map_replicate {α : Type} (n : Nat) (a : α) (f : α → Nat) :
    ((List.replicate n a).map f).sum = n * f a := by
  induction n with
  | zero => simp
  | succ n ih =>
    rw [List.replicate_succ, List.map_cons, List.sum_cons, ih]
    rw [Nat.succ_mul, Nat.add_comm]

theorem length_layout_replicate (n : Nat) :
    (layout [{ eventCount := n, traceId := 0, reviewed := 0, name := List.replicate n 0,
               events := List.replicate n [] }]).length = 13 + 2 * n := by
  simp only [layout, List.length_append, encInt_length, List.flatMap_cons, List.flatMap_nil,
    List.append_nil, length_traceLayout, List.length_replicate, sum_map_replicate,
    List.length_nil]
  omega

theorem length_layout_longRecord : (layout [longRecord]).length = 2147483661 :=
  length_layout_replicate manyEvents

theorem longTrace_record : longTrace.record = longRecord := by
  unfold Traza.record longTrace longRecord
  simp only [List.map_replicate]
  rfl

theorem length_wireFormat_longTrace : (wireFormat 1 [longTrace]).length = 2147483661 := by
  rw [wireFormat_of_invariants 1 [longTrace] longTrace_invariants.1, List.map_cons,
    List.map_nil, longTrace_record]
  exact length_layout_longRecord

theorem longRecord_wellFormed : longRecord.WellFormed := by
  refine ⟨?_, ?_, ?_, ?_, ?_⟩
  · show manyEvents < 4294967296
    unfold manyEvents
    omega
  · show 0 < 4294967296
    omega
  · show (List.replicate manyEvents (0 : Byte)).length = manyEvents
    exact List.length_replicate _ _
  · show (List.replicate manyEvents ([] : List Byte)).length = manyEvents
    exact List.length_replicate _ _
  · intro c hc
    have hc2 : c ∈ List.replicate manyEvents ([] : List Byte) := hc
    rw [List.mem_replicate] at hc2
    rw [hc2.2]
    exact Nat.zero_lt_succ _

/-- Every write recorded in grouped steps is handed a buffer no longer than the
bytes written by the end of the steps. -/
theorem stepsGrouped_out (c : Nat) (l : List Step) (hl : stepsGrouped c l = true) :
    ∀ f p n out, Step.packed f p n out ∈ l → out ≤ c + written l := by
  induction c, l using stepsGrouped.induct with
  | case1 c => intro f p n out h; simp at h
  | case2 c p0 size old q n0 out0 q2 n2 out2 rest2 ih =>
    unfold stepsGrouped at hl
    simp only [if_true, Bool.and_eq_true, beq_iff_eq] at hl
    intro f p n out h
    simp only [List.mem_cons, Step.packed.injEq, reduceCtorEq, false_or] at h
    simp only [written]
    rcases h with ⟨rfl, rfl, rfl, rfl⟩ | ⟨rfl, rfl, rfl, rfl⟩ | h
    · have := hl.1
      omega
    · have := hl.1
      omega
    · have := ih hl.2 f p n out h
      have := hl.1
      omega
  | case3 c p0 size old q n0 out0 rest hne =>
    exfalso
    unfold stepsGrouped at hl
    simp only [if_true] at hl
    cases hl
  | case4 c p0 size old f0 q n0 out0 rest hf ih =>
    unfold stepsGrouped at hl
    simp only [hf, if_false, Bool.and_eq_true, beq_iff_eq] at hl
    intro f p n out h
    simp only [List.mem_cons, Step.packed.injEq, reduceCtorEq, false_or] at h
    simp only [written]
    rcases h with ⟨rfl, rfl, rfl, rfl⟩ | h
    · have := hl.1
      omega
    · have := ih hl.2 f p n out h
      have := hl.1
      omega
  | case5 c l h1 h2 =>
    exfalso
    unfold stepsGrouped at hl
    split at hl
    · exact h1 rfl
    · exact h2 _ _ _ _ _ _ _ _ rfl
    · simp at hl

theorem granted_nil (alloc : Allocator) : Granted alloc [] := by
  refine ⟨?_, ?_⟩
  · simp [newArray]
  · intro w hw
    cases hw


/-! ## The claims -/

set_option maxRecDepth 20000

/-- Claim C1, as stated, fails: the one-trace collection `longTrace` satisfies
the data-model invariants and holds values of its C types, but its wire bytes
are `2^31 + 13`, more than an `int` cursor can count: in `pack_plista` the sum
`pos+size` overflows, and the source defines no buffer to decode. -/
theorem roundtrip_overflows :
    Invariants 1 [longTrace] ∧ Typed 1 [longTrace]
      ∧ (wireFormat 1 [longTrace]).length = 2147483661
      ∧ pack_plista 1 [longTrace] [] = .error .undefined := by
  refine ⟨longTrace_invariants.1, longTrace_invariants.2, length_wireFormat_longTrace, ?_⟩
  rw [pack_plista_eq, if_neg]
  rintro ⟨_, hf⟩
  unfold Fits at hf
  rw [length_wireFormat_longTrace] at hf
  exact absurd hf (by decide)

/-- Claim C1, amended. Round trip: for every collection that satisfies the
data-model invariants (its integer fields holding values of their C types),
whose wire bytes are at most `INT_MAX` and for which the runtime grants the
allocations of the decoder, `pack_plista` produces a buffer, and
`unpack_plista` on that buffer returns the same count and the same list of
traces, trace by trace and field by field in the same order. -/
theorem roundtrip (alloc : Allocator) (incount : Int) (data : List Traza) (buf0 : List Byte)
    (hi : Invariants incount data) (ht : Typed incount data) (hf : Fits incount data)
    (hg : Granted alloc (data.map Traza.record)) :
    ∃ buf, pack_plista incount data buf0 = .ok buf
      ∧ unpack_plista alloc buf = .ok (incount, data) := by
  refine ⟨wireFormat incount data, ?_, ?_⟩
  · rw [pack_plista_eq, if_pos ⟨readable_of_invariants incount data hi, hf⟩]
  · have h := unpack_wireFormat alloc incount data [] hi ht hg
      (by rw [List.append_nil]; exact hf)
    rw [List.append_nil] at h
    simp only [unpack_plista, h]

/-- Two traces with ids 1 and 2, in that order, come back in that order. -/
theorem roundtrip_witness :
    Invariants 2 [⟨[7], [⟨[8, 9], 2⟩], 1, true, 1⟩, ⟨[], [], 0, false, 2⟩]
      ∧ Typed 2 [⟨[7], [⟨[8, 9], 2⟩], 1, true, 1⟩, ⟨[], [], 0, false, 2⟩]
      ∧ Fits 2 [⟨[7], [⟨[8, 9], 2⟩], 1, true, 1⟩, ⟨[], [], 0, false, 2⟩]
      ∧ ∃ buf, pack_plista 2 [⟨[7], [⟨[8, 9], 2⟩], 1, true, 1⟩, ⟨[], [], 0, false, 2⟩] [] = .ok buf
        ∧ unpack_plista grantAll buf
            = .ok (2, [⟨[7], [⟨[8, 9], 2⟩], 1, true, 1⟩, ⟨[], [], 0, false, 2⟩]) :=
  ⟨by decide, by decide, by decide,
   roundtrip grantAll 2 _ [] (by decide) (by decide) (by decide) (by decide)⟩

/-- Claim C2. Wire format: the buffer `pack_plista` produces is exactly the
concatenation, with nothing in between, of the 4 bytes of the count and, for
each trace in order, the 4 bytes of `cantEventos`, the 4 bytes of `idTraza`,
one byte 1 or 0 for `revisado`, the `cantEventos` name bytes and, for each
event in order, the byte `cant` and the `cant` content bytes.  It is produced
whenever the arrays of the collection hold the cells its count fields announce
and these bytes are at most `INT_MAX`; on any other collection the source
reads outside an array or overflows its `int` cursor, and defines no
buffer. -/
theorem wire_format (incount : Int) (data : List Traza) (buf0 : List Byte) :
    pack_plista incount data buf0
      = if Readable incount data ∧ Fits incount data then
          .ok (encInt incount ++ (data.take incount.toNat).flatMap fun t =>
            le32 t.cantEventos ++ le32 t.idTraza ++ [if t.revisado then 1 else 0]
              ++ t.nombre.take t.cantEventos
              ++ (t.eventos.take t.cantEventos).flatMap fun e =>
                    byteOf e.cant :: e.evento.take e.cant)
        else .error .undefined :=
  pack_plista_eq incount data buf0

/-- Claim C3, as stated, fails: the buffer laid out for the one well-formed
record `longRecord` has `2^31 + 13` bytes; its size is not an `int`, and the
size `(int)buf.size()` handed to the first `MPI_Unpack` is negative: an
erroneous call, under every runtime, after which the source defines no
result. -/
theorem decoder_size_overflows :
    longRecord.WellFormed ∧ (layout [longRecord]).length = 2147483661
      ∧ ∀ alloc, unpack_plista alloc (layout [longRecord]) = .error .undefined := by
  refine ⟨longRecord_wellFormed, length_layout_longRecord, ?_⟩
  intro alloc
  exact unpack_plista_long alloc (layout [longRecord])
    (by rw [length_layout_longRecord]; decide) (by rw [length_layout_longRecord]; decide)

/-- Claim C3, amended. The decoder follows the wire format on its own: for
every buffer of at most `INT_MAX` bytes laid out as a count (`int`, not
negative) and per trace an event count, a trace id, a reviewed byte `r`, the
name bytes and the events, each a length byte and its content, and whenever
the runtime grants the allocations, `unpack_plista` returns that count and,
trace by trace, those fields, with `revisado` true exactly when `r` is not
0. -/
theorem decoder_follows_layout (alloc : Allocator) (ws : List WireTrace)
    (hn : ws.length < 2147483648) (hw : ∀ w ∈ ws, w.WellFormed)
    (hfit : (layout ws).length ≤ INT_MAX) (hg : Granted alloc ws) :
    unpack_plista alloc (layout ws)
      = .ok ((ws.length : Int), ws.map fun w =>
          { nombre := w.name
            eventos := w.events.map fun c => { evento := c, cant := c.length }
            cantEventos := w.eventCount
            revisado := decide (w.reviewed ≠ (0 : Byte))
            idTraza := w.traceId }) := by
  have h := unpack_plista_layout alloc ws [] hn hw hg (by rw [List.append_nil]; exact hfit)
  rw [List.append_nil] at h
  exact h

/-- A record whose reviewed byte is 200 decodes to a reviewed trace. -/
theorem decoder_follows_layout_witness :
    (∀ w ∈ ([⟨1, 5, 200, [9], [[1, 2]]⟩, ⟨0, 6, 0, [], []⟩] : List WireTrace), w.WellFormed)
      ∧ layout [⟨1, 5, 200, [9], [[1, 2]]⟩, ⟨0, 6, 0, [], []⟩]
          = [2, 0, 0, 0, 1, 0, 0, 0, 5, 0, 0, 0, 200, 9, 2, 1, 2, 0, 0, 0, 0, 6, 0, 0, 0, 0]
      ∧ unpack_plista grantAll (layout [⟨1, 5, 200, [9], [[1, 2]]⟩, ⟨0, 6, 0, [], []⟩])
          = .ok (2, [⟨[9], [⟨[1, 2], 2⟩], 1, true, 5⟩, ⟨[], [], 0, false, 6⟩]) :=
  ⟨by decide, by decide,
   decoder_follows_layout grantAll [⟨1, 5, 200, [9], [[1, 2]]⟩, ⟨0, 6, 0, [], []⟩] (by decide)
     (by decide) (by decide) (by decide)⟩

/-- Claim C4. Encoded length: for every collection satisfying the data-model
invariants, every buffer `pack_plista` produces has
`4 + Σ traces (4 + 4 + 1 + cantEventos + Σ events (1 + cant))` bytes, and it
produces one whenever that number is at most `INT_MAX`; the collection of
`make_test_data` is packed into 40 bytes, which unpack to exactly the fields
it was built from whenever the runtime grants the allocations. -/
theorem encoded_length (incount : Int) (data : List Traza) (buf0 : List Byte)
    (hi : Invariants incount data) :
    (∀ buf, pack_plista incount data buf0 = .ok buf →
      buf.length = 4 + (data.map fun t =>
          4 + 4 + 1 + t.cantEventos + (t.eventos.map fun e => 1 + e.cant).sum).sum)
    ∧ (4 + (data.map fun t =>
          4 + 4 + 1 + t.cantEventos + (t.eventos.map fun e => 1 + e.cant).sum).sum ≤ INT_MAX →
        ∃ buf, pack_plista incount data buf0 = .ok buf)
    ∧ (∃ buf, pack_plista make_test_data.1 make_test_data.2 buf0 = .ok buf
      ∧ buf.length = 40
      ∧ ∀ alloc, Granted alloc (make_test_data.2.map Traza.record) →
          unpack_plista alloc buf = .ok
            (2, [ { nombre := [0, 1, 3]
                    eventos := [⟨[97, 98, 99, 100], 4⟩, ⟨[101, 102, 103], 3⟩, ⟨[104, 105], 2⟩]
                    cantEventos := 3, revisado := true, idTraza := 0 },
                  { nombre := [4], eventos := [⟨[106], 1⟩]
                    cantEventos := 1, revisado := false, idTraza := 1 } ])) := by
  refine ⟨?_, ?_, ?_⟩
  · intro buf h
    rw [pack_plista_eq] at h
    split at h
    · simp only [Except.ok.injEq] at h
      rw [← h]
      exact length_wireFormat incount data hi
    · cases h
  · intro hle
    refine ⟨wireFormat incount data, ?_⟩
    have hf : Fits incount data := by
      unfold Fits
      rw [length_wireFormat incount data hi]
      exact hle
    rw [pack_plista_eq, if_pos ⟨readable_of_invariants incount data hi, hf⟩]
  · refine ⟨wireFormat make_test_data.1 make_test_data.2, ?_, by decide, ?_⟩
    · rw [pack_plista_eq, if_pos (by decide)]
    · intro alloc hg
      have h := unpack_wireFormat alloc make_test_data.1 make_test_data.2 [] (by decide)
        (by decide) hg (by decide)
      rw [List.append_nil] at h
      simp only [unpack_plista, h]
      rfl

/-- The collection of `make_test_data` satisfies the invariants; its 40 bytes. -/
theorem encoded_length_witness :
    Invariants make_test_data.1 make_test_data.2
      ∧ (∀ buf, pack_plista make_test_data.1 make_test_data.2 [] = .ok buf →
          buf.length = 4 + (make_test_data.2.map fun t =>
            4 + 4 + 1 + t.cantEventos + (t.eventos.map fun e => 1 + e.cant).sum).sum)
      ∧ 4 + (make_test_data.2.map fun t =>
            4 + 4 + 1 + t.cantEventos + (t.eventos.map fun e => 1 + e.cant).sum).sum = 40
      ∧ pack_plista make_test_data.1 make_test_data.2 []
          = .ok [2, 0, 0, 0, 3, 0, 0, 0, 0, 0, 0, 0, 1, 0, 1, 3, 4, 97, 98, 99, 100,
                 3, 101, 102, 103, 2, 104, 105, 1, 0, 0, 0, 1, 0, 0, 0, 0, 4, 1, 106]
      ∧ unpack_plista grantAll
          [2, 0, 0, 0, 3, 0, 0, 0, 0, 0, 0, 0, 1, 0, 1, 3, 4, 97, 98, 99, 100,
           3, 101, 102, 103, 2, 104, 105, 1, 0, 0, 0, 1, 0, 0, 0, 0, 4, 1, 106]
          = .ok (make_test_data.1, make_test_data.2) :=
  ⟨by decide,
   (encoded_length make_test_data.1 make_test_data.2 [] (by decide)).1,
   by decide, by decide, by decide⟩

/-- Claim C5. Empty collection: with `incount = 0` `pack_plista` yields
exactly the 4 bytes of the integer 0, whatever `data` and the old contents of
`buf` are; `unpack_plista` on these 4 bytes yields `outcount = 0` and no
trace, under every runtime, with its cursor at 4; and whatever bytes follow
them in a buffer of at most `INT_MAX` bytes, its cursor stops at 4 and the
result is the same. -/
theorem empty_collection (alloc : Allocator) (data : List Traza) (buf0 rest : List Byte) :
    pack_plista 0 data buf0 = .ok [0, 0, 0, 0]
      ∧ encInt 0 = [0, 0, 0, 0]
      ∧ unpack_plista alloc [0, 0, 0, 0] = .ok (0, [])
      ∧ unpackRun alloc [0, 0, 0, 0] = .ok (0, [], 4)
      ∧ (([0, 0, 0, 0] ++ rest).length ≤ INT_MAX →
          unpackRun alloc ([0, 0, 0, 0] ++ rest) = .ok (0, [], 4)) := by
  have h0 := unpackRun_layout alloc [] [] (by decide) (by simp) (granted_nil alloc) (by decide)
  rw [List.append_nil] at h0
  refine ⟨?_, rfl, ?_, h0, ?_⟩
  · have hw : wireFormat 0 data = [0, 0, 0, 0] := by
      simp [wireFormat]
      rfl
    have hf : Fits 0 data := by
      unfold Fits
      rw [hw]
      decide
    rw [pack_plista_eq, if_pos ⟨by simp [Readable], hf⟩, hw]
  · simp only [unpack_plista]
    rw [show ([0, 0, 0, 0] : List Byte) = layout [] from rfl, h0]
    rfl
  · intro hfit
    exact unpackRun_layout alloc [] rest (by decide) (by simp) (granted_nil alloc) hfit

/-- The four bytes followed by three more, under the runtime that grants
every request and under the one that grants none. -/
theorem empty_collection_witness :
    (([0, 0, 0, 0] ++ [7, 8, 9] : List Byte).length ≤ INT_MAX)
      ∧ unpackRun grantAll ([0, 0, 0, 0] ++ [7, 8, 9]) = .ok (0, [], 4)
      ∧ unpack_plista (fun _ _ => false) [0, 0, 0, 0] = .ok (0, []) :=
  ⟨by decide,
   (empty_collection grantAll [] [] [7, 8, 9]).2.2.2.2 (by decide),
   (empty_collection (fun _ _ => false) [] [] []).2.2.1⟩

/-- Claim C6. Length invariant of decoded data: whenever `unpack_plista`
succeeds, the number of traces it returns is the decoded count, every trace
has exactly `cantEventos` name bytes and exactly `cantEventos` events, and
every event has exactly `cant` content bytes with `cant ≤ 255`. -/
theorem decoded_lengths (alloc : Allocator) (buf : List Byte) (outcount : Int)
    (data : List Traza) (h : unpack_plista alloc buf = .ok (outcount, data)) :
    (data.length : Int) = outcount
      ∧ ∀ t ∈ data, t.nombre.length = t.cantEventos ∧ t.eventos.length = t.cantEventos
          ∧ ∀ e ∈ t.eventos, e.evento.length = e.cant ∧ e.cant ≤ 255 := by
  unfold unpack_plista at h
  split at h
  · cases h
  · rename_i c d p hrun
    simp only [Except.ok.injEq, Prod.mk.injEq] at h
    obtain ⟨h1, h2⟩ := h
    subst h1 h2
    obtain ⟨_, hlen, hs, _⟩ := unpackRun_sized alloc buf _ _ p hrun
    exact ⟨hlen, hs⟩

/-- A buffer that is not the output of the encoder (reviewed byte 9). -/
theorem decoded_lengths_witness :
    unpack_plista grantAll [1, 0, 0, 0, 2, 0, 0, 0, 5, 0, 0, 0, 9, 7, 8, 0, 3, 1, 2, 3]
        = .ok (1, [⟨[7, 8], [⟨[], 0⟩, ⟨[1, 2, 3], 3⟩], 2, true, 5⟩])
      ∧ (([⟨[7, 8], [⟨[], 0⟩, ⟨[1, 2, 3], 3⟩], 2, true, 5⟩] : List Traza).length : Int) = 1
      ∧ ∀ t ∈ ([⟨[7, 8], [⟨[], 0⟩, ⟨[1, 2, 3], 3⟩], 2, true, 5⟩] : List Traza),
          t.nombre.length = t.cantEventos ∧ t.eventos.length = t.cantEventos
          ∧ ∀ e ∈ t.eventos, e.evento.length = e.cant ∧ e.cant ≤ 255 :=
  ⟨by decide,
   decoded_lengths grantAll [1, 0, 0, 0, 2, 0, 0, 0, 5, 0, 0, 0, 9, 7, 8, 0, 3, 1, 2, 3] 1
     [⟨[7, 8], [⟨[], 0⟩, ⟨[1, 2, 3], 3⟩], 2, true, 5⟩] (by decide)⟩

/-- Claim C7, as stated, fails: the 13 bytes `1,0,0,0,0,...` decode to one
trace, but on their first 4 bytes (a count of 1 and nothing after it), with
every allocation granted, `unpack_plista` raises nothing: its run reaches an
`MPI_Unpack` that asks for 4 bytes where none is left, a call whose result the
source neither tests nor defines. -/
theorem truncated_raises_nothing :
    unpackRun grantAll [1, 0, 0, 0, 0, 0, 0, 0, 0, 0, 0, 0, 0]
        = .ok (1, [⟨[], [], 0, false, 0⟩], 13)
      ∧ unpack_plista grantAll (List.take 4 [1, 0, 0, 0, 0, 0, 0, 0, 0, 0, 0, 0, 0])
          = .error .undefined
      ∧ unpack_plista grantAll (List.take 4 [1, 0, 0, 0, 0, 0, 0, 0, 0, 0, 0, 0, 0])
          ≠ .error .thrown := by
  decide

/-- Claim C7, amended. For every buffer cut short of what its own header
fields declare (the first `k` bytes of a buffer of which a decode consumes
more than `k`), the run of `unpack_plista`, under the runtime of that decode,
reaches an `MPI_Unpack` that asks for more bytes than the buffer has left: an
erroneous call, whose result the source does not test and after which it
defines no behaviour.  Under any other runtime the run reaches that call too,
unless a `new` expression throws before it. -/
theorem truncated_undefined (alloc : Allocator) (buf : List Byte) (outcount : Int)
    (data : List Traza) (p k : Nat) (h : unpackRun alloc buf = .ok (outcount, data, p))
    (hk : k < p) :
    unpack_plista alloc (buf.take k) = .error .undefined
      ∧ ∀ alloc2, unpack_plista alloc2 (buf.take k) = .error .undefined
          ∨ unpack_plista alloc2 (buf.take k) = .error .thrown := by
  have hnot : ¬ p ≤ k := by omega
  obtain ⟨_, _, _, _, _, hp⟩ := unpackRun_sized alloc buf outcount data p h
  have h1 : unpack_plista alloc (buf.take k) = .error .undefined := by
    simp only [unpack_plista, unpackRun_take alloc buf outcount data p k (by omega) h,
      if_neg hnot]
  refine ⟨h1, ?_⟩
  intro alloc2
  rcases unpack_plista_alloc alloc alloc2 (buf.take k) with h2 | h2 | h2
  · exact Or.inl (h2.trans h1)
  · exact Or.inr h2
  · rw [h1] at h2
    cases h2

/-- The encoding of `make_test_data` cut after 39 of its 40 bytes; under the
runtime that grants no request the decoder throws at its first `new`, as it
does on the 4 bytes of the count `INT_MAX`. -/
theorem truncated_undefined_witness :
    unpack_plista (fun _ _ => false) [255, 255, 255, 127] = .error .thrown
      ∧ unpackRun grantAll [2, 0, 0, 0, 3, 0, 0, 0, 0, 0, 0, 0, 1, 0, 1, 3, 4, 97, 98, 99, 100,
               3, 101, 102, 103, 2, 104, 105, 1, 0, 0, 0, 1, 0, 0, 0, 0, 4, 1, 106]
        = .ok (make_test_data.1, make_test_data.2, 40)
      ∧ unpack_plista (fun _ _ => false) (List.take 39
          [2, 0, 0, 0, 3, 0, 0, 0, 0, 0, 0, 0, 1, 0, 1, 3, 4, 97, 98, 99, 100,
           3, 101, 102, 103, 2, 104, 105, 1, 0, 0, 0, 1, 0, 0, 0, 0, 4, 1, 106])
        = .error .thrown
      ∧ unpack_plista grantAll (List.take 39
          [2, 0, 0, 0, 3, 0, 0, 0, 0, 0, 0, 0, 1, 0, 1, 3, 4, 97, 98, 99, 100,
           3, 101, 102, 103, 2, 104, 105, 1, 0, 0, 0, 1, 0, 0, 0, 0, 4, 1, 106])
        = .error .undefined :=
  ⟨by decide, by decide, by decide,
   (truncated_undefined grantAll _ make_test_data.1 make_test_data.2 40 39 (by decide)
    (by decide)).1⟩

/-- Claim C8, as stated, fails: an event with 256 content bytes and `cant = 3`
is packed without any error, as the byte 3 and its first 3 content bytes. -/
theorem long_event_is_cut :
    (List.replicate 256 (97 : Byte)).length > 255
      ∧ pack_plista 1 [⟨[5], [⟨List.replicate 256 97, 3⟩], 1, false, 0⟩] []
          = .ok [1, 0, 0, 0, 1, 0, 0, 0, 0, 0, 0, 0, 0, 5, 3, 97, 97, 97] := by
  decide

/-- Claim C8, amended. `pack_plista` has no error for an event content longer
than its `cant`: for every collection whose arrays hold at least the cells its
count fields announce and whose wire bytes are at most `INT_MAX` it produces
the buffer in which each event is the byte `cant` followed by the first `cant`
content bytes and nothing else of the content, which is also the buffer it
produces for the collection with every event content cut to `cant` bytes. -/
theorem long_event_no_error (incount : Int) (data : List Traza) (buf0 : List Byte)
    (hr : Readable incount data) (hf : Fits incount data) :
    pack_plista incount data buf0
        = .ok (encInt incount ++ (data.take incount.toNat).flatMap fun t =>
            le32 t.cantEventos ++ le32 t.idTraza ++ [if t.revisado then 1 else 0]
              ++ t.nombre.take t.cantEventos
              ++ (t.eventos.take t.cantEventos).flatMap fun e =>
                    byteOf e.cant :: e.evento.take e.cant)
      ∧ pack_plista incount (data.map Traza.clip) buf0 = pack_plista incount data buf0 := by
  have hc : Fits incount (data.map Traza.clip) := by
    unfold Fits at hf ⊢
    rw [wireFormat_clip]
    exact hf
  constructor
  · rw [pack_plista_eq, if_pos ⟨hr, hf⟩]
    rfl
  · rw [pack_plista_eq, pack_plista_eq, if_pos ⟨readable_clip incount data hr, hc⟩,
      if_pos ⟨hr, hf⟩, wireFormat_clip]

/-- The collection with the 256 byte event. -/
theorem long_event_no_error_witness :
    Readable 1 [⟨[5], [⟨List.replicate 256 97, 3⟩], 1, false, 0⟩]
      ∧ Fits 1 [⟨[5], [⟨List.replicate 256 97, 3⟩], 1, false, 0⟩]
      ∧ pack_plista 1
            (List.map Traza.clip [⟨[5], [⟨List.replicate 256 97, 3⟩], 1, false, 0⟩]) []
          = pack_plista 1 [⟨[5], [⟨List.replicate 256 97, 3⟩], 1, false, 0⟩] [] :=
  ⟨by decide, by decide, (long_event_no_error 1 _ [] (by decide) (by decide)).2⟩

/-- Claim C9, as stated, fails: packing one empty trace, `cantEventos` is
written at cursor 4 (4 bytes) into a buffer that was grown by 8 to 12 bytes,
so right after that write the buffer ends 4 bytes beyond the cursor. -/
theorem shared_growth :
    ∃ s, packRun 1 [⟨[], [], 0, false, 0⟩] [] = .ok s
      ∧ s.steps = [.resized 0 4 0, .packed .incount 0 4 4,
                   .resized 4 8 4, .packed .cantEventos 4 4 12, .packed .idTraza 8 4 12,
                   .resized 12 1 12, .packed .revisado 12 1 13,
                   .resized 13 0 13, .packed .nombre 13 0 13]
      ∧ stepsExact 0 s.steps = false :=
  ⟨_, rfl, rfl, rfl⟩

/-- Claim C9, amended. `pack_plista` runs to its last statement on every
collection whose arrays hold the cells its count fields announce and whose
wire bytes are at most `INT_MAX`, and in every run that reaches the last
statement each growth starts from a buffer that ends at the cursor and adds
exactly the size of what is written before the next growth: one value, except
that `cantEventos` and `idTraza` share one growth of 8 bytes.  Every write
advances the cursor by exactly the written size, and after every write other
than that of `cantEventos` the buffer ends at the cursor. -/
theorem growth_per_write (incount : Int) (data : List Traza) (buf0 : List Byte) :
    (Readable incount data → Fits incount data → ∃ s, packRun incount data buf0 = .ok s)
      ∧ ∀ s, packRun incount data buf0 = .ok s →
          stepsGrouped 0 s.steps = true ∧ s.pos = written s.steps
            ∧ s.buf.length = s.pos := by
  constructor
  · intro hr hf
    obtain ⟨s, hs, _⟩ := (packRun_spec incount data buf0).1 ⟨hr, hf⟩
    exact ⟨s, hs⟩
  · intro s h
    obtain ⟨_, _, ht⟩ := packRun_tight incount data buf0 s h
    exact ⟨ht.2.2, ht.2.1, ht.1⟩

/-- The run on the collection of `make_test_data`. -/
theorem growth_per_write_witness :
    Readable make_test_data.1 make_test_data.2
      ∧ Fits make_test_data.1 make_test_data.2
      ∧ ∃ s, packRun make_test_data.1 make_test_data.2 [] = .ok s
        ∧ stepsGrouped 0 s.steps = true ∧ s.pos = written s.steps ∧ s.buf.length = s.pos :=
  ⟨by decide, by decide, _, rfl,
   (growth_per_write make_test_data.1 make_test_data.2 []).2 _ rfl⟩

/-- Claim C10. No trailing slack: `pack_plista` runs to its last statement on
every collection whose arrays hold the cells its count fields announce and
whose wire bytes are at most `INT_MAX`, and whenever it reaches that statement
the buffer is exactly as long as the cursor, which is the number of bytes
written; `buf.resize(pos)` removes nothing and the buffer returned is that
buffer. -/
theorem no_trailing_slack (incount : Int) (data : List Traza) (buf0 : List Byte) :
    (Readable incount data → Fits incount data → ∃ s, packRun incount data buf0 = .ok s)
      ∧ ∀ s, packRun incount data buf0 = .ok s →
          s.buf.length = s.pos ∧ s.pos = written s.steps ∧ vresize s.buf s.pos = s.buf
            ∧ pack_plista incount data buf0 = .ok s.buf := by
  constructor
  · intro hr hf
    obtain ⟨s, hs, _⟩ := (packRun_spec incount data buf0).1 ⟨hr, hf⟩
    exact ⟨s, hs⟩
  · intro s h
    obtain ⟨_, _, ht⟩ := packRun_tight incount data buf0 s h
    have hv : vresize s.buf s.pos = s.buf := by rw [← ht.1, vresize_self]
    refine ⟨ht.1, ht.2.1, hv, ?_⟩
    simp only [pack_plista, h, hv]

/-- The run on a collection of one trace with one event, into a vector that
held three bytes. -/
theorem no_trailing_slack_witness :
    Readable 1 [⟨[5], [⟨[6, 7], 2⟩], 1, true, 3⟩]
      ∧ Fits 1 [⟨[5], [⟨[6, 7], 2⟩], 1, true, 3⟩]
      ∧ ∃ s, packRun 1 [⟨[5], [⟨[6, 7], 2⟩], 1, true, 3⟩] [1, 2, 3] = .ok s
        ∧ s.buf.length = s.pos ∧ s.pos = written s.steps ∧ vresize s.buf s.pos = s.buf
        ∧ pack_plista 1 [⟨[5], [⟨[6, 7], 2⟩], 1, true, 3⟩] [1, 2, 3] = .ok s.buf :=
  ⟨by decide, by decide, _, rfl,
   (no_trailing_slack 1 [⟨[5], [⟨[6, 7], 2⟩], 1, true, 3⟩] [1, 2, 3]).2 _ rfl⟩

/-- Claim C11. Fresh buffer: `pack_plista` clears the vector and starts with the
cursor at 0, so whatever two contents the vector `buf` has on entry the run
and its result are the same (the result is the one for an empty vector), and
the first steps of every run that reaches the last statement are the growth
by 4 bytes, at cursor 0, of a buffer of 0 bytes and the write of the count at
position 0. -/
theorem fresh_buffer (incount : Int) (data : List Traza) (b1 b2 : List Byte) :
    pack_plista incount data b1 = pack_plista incount data b2
      ∧ pack_plista incount data b1 = pack_plista incount data []
      ∧ packRun incount data b1 = packRun incount data b2
      ∧ ∀ s, packRun incount data b1 = .ok s →
          ∃ rest, s.steps = Step.resized 0 4 0 :: Step.packed .incount 0 4 4 :: rest :=
  ⟨rfl, rfl, rfl, fun s h => packRun_first_steps incount data b1 s h⟩

/-- The same one-trace collection packed into a vector that held three bytes
and into an empty one. -/
theorem fresh_buffer_witness :
    pack_plista 1 [⟨[5], [⟨[6, 7], 2⟩], 1, true, 3⟩] [9, 9, 9]
        = .ok [1, 0, 0, 0, 1, 0, 0, 0, 3, 0, 0, 0, 1, 5, 2, 6, 7]
      ∧ ∃ s, packRun 1 [⟨[5], [⟨[6, 7], 2⟩], 1, true, 3⟩] [9, 9, 9] = .ok s
        ∧ pack_plista 1 [⟨[5], [⟨[6, 7], 2⟩], 1, true, 3⟩] [9, 9, 9]
            = pack_plista 1 [⟨[5], [⟨[6, 7], 2⟩], 1, true, 3⟩] []
        ∧ ∃ rest, s.steps = Step.resized 0 4 0 :: Step.packed .incount 0 4 4 :: rest :=
  ⟨by decide, _, rfl,
   (fresh_buffer 1 [⟨[5], [⟨[6, 7], 2⟩], 1, true, 3⟩] [9, 9, 9] []).2.1,
   (fresh_buffer 1 [⟨[5], [⟨[6, 7], 2⟩], 1, true, 3⟩] [9, 9, 9] []).2.2.2 _ rfl⟩

/-- Claim C12, as stated, fails: the collection of the one trace `longTrace`
satisfies the data-model invariants, but packing it the `int` sum `pos+size`
overflows before the last event is written: the overflow branch of the writer
is reached, and the source defines nothing from there on. -/
theorem writes_overflow :
    Invariants 1 [longTrace] ∧ Typed 1 [longTrace]
      ∧ packRun 1 [longTrace] [] = .error .undefined := by
  refine ⟨longTrace_invariants.1, longTrace_invariants.2, ?_⟩
  apply (packRun_spec 1 [longTrace] []).2
  rintro ⟨_, hf⟩
  unfold Fits at hf
  rw [length_wireFormat_longTrace] at hf
  exact absurd hf (by decide)

/-- Claim C12, amended. Writes stay in bounds: for every collection satisfying
the data-model invariants whose wire bytes are at most `INT_MAX`,
`pack_plista` runs to its last statement, so that no growth and no `MPI_Pack`
of the run took its overflow branch; at every `MPI_Pack` of the run the cursor
plus the size of the value written was at most the length the buffer had at
that call, and that length was at most `INT_MAX`. -/
theorem writes_in_bounds (incount : Int) (data : List Traza) (buf0 : List Byte)
    (hi : Invariants incount data) (hf : Fits incount data) :
    ∃ s, packRun incount data buf0 = .ok s
      ∧ ∀ f pos n outsize, Step.packed f pos n outsize ∈ s.steps →
          pos + n ≤ outsize ∧ outsize ≤ INT_MAX := by
  obtain ⟨s, hs, hb, ht⟩ :=
    (packRun_spec incount data buf0).1 ⟨readable_of_invariants incount data hi, hf⟩
  refine ⟨s, hs, ?_⟩
  intro f pos n outsize hm
  have h1 := stepsGrouped_fits 0 s.steps ht.2.2 f pos n outsize hm
  have h2 := stepsGrouped_out 0 s.steps ht.2.2 f pos n outsize hm
  have h3 : s.buf.length ≤ INT_MAX := by rw [hb]; exact hf
  have h4 := ht.1
  have h5 := ht.2.1
  exact ⟨h1, by omega⟩

/-- The run on the collection of `make_test_data`. -/
theorem writes_in_bounds_witness :
    Invariants make_test_data.1 make_test_data.2
      ∧ Fits make_test_data.1 make_test_data.2
      ∧ ∃ s, packRun make_test_data.1 make_test_data.2 [] = .ok s
        ∧ ∀ f pos n outsize, Step.packed f pos n outsize ∈ s.steps →
            pos + n ≤ outsize ∧ outsize ≤ INT_MAX :=
  ⟨by decide, by decide,
   writes_in_bounds make_test_data.1 make_test_data.2 [] (by decide) (by decide)⟩

/-- Claim C13, as stated, fails: the empty collection is packed into the 4
bytes of the count 0, but followed by `2^31` further bytes they make a buffer
whose size is not an `int`: the size `(int)buf.size()` handed to the first
`MPI_Unpack` is negative, an erroneous call under every runtime, after which
the source defines no result. -/
theorem trailing_bytes_overflow :
    Invariants 0 [] ∧ pack_plista 0 [] [] = .ok [0, 0, 0, 0]
      ∧ ∀ alloc, unpack_plista alloc ([0, 0, 0, 0] ++ List.replicate 2147483648 0)
          = .error .undefined := by
  refine ⟨by decide, by decide, ?_⟩
  intro alloc
  have hl : (([0, 0, 0, 0] : List Byte) ++ List.replicate 2147483648 0).length = 2147483652 := by
    rw [List.length_append, List.length_replicate]
    rfl
  exact unpack_plista_long alloc ([0, 0, 0, 0] ++ List.replicate 2147483648 0)
    (by rw [hl]; decide) (by rw [hl]; decide)

/-- Claim C13, amended. Trailing bytes are ignored: for every collection
satisfying the data-model invariants (integer fields holding values of their C
types) whose wire bytes are at most `INT_MAX`, `pack_plista` produces a buffer
such that, whatever bytes follow it in a buffer of at most `INT_MAX` bytes and
whenever the runtime grants the allocations, `unpack_plista` returns the count
and the traces of the collection, all the same, and its cursor stops at the
length of the buffer produced. -/
theorem trailing_bytes_ignored (alloc : Allocator) (incount : Int) (data : List Traza)
    (buf0 : List Byte) (hi : Invariants incount data) (ht : Typed incount data)
    (hf : Fits incount data) (hg : Granted alloc (data.map Traza.record)) :
    ∃ buf, pack_plista incount data buf0 = .ok buf
      ∧ ∀ extra, (buf ++ extra).length ≤ INT_MAX →
          unpack_plista alloc (buf ++ extra) = .ok (incount, data)
            ∧ unpackRun alloc (buf ++ extra) = .ok (incount, data, buf.length) := by
  refine ⟨wireFormat incount data, ?_, ?_⟩
  · rw [pack_plista_eq, if_pos ⟨readable_of_invariants incount data hi, hf⟩]
  · intro extra hfit
    have h := unpack_wireFormat alloc incount data extra hi ht hg hfit
    exact ⟨by simp only [unpack_plista, h], h⟩

/-- The 17 bytes of a one-trace collection followed by three more bytes. -/
theorem trailing_bytes_ignored_witness :
    Invariants 1 [⟨[5], [⟨[6, 7], 2⟩], 1, true, 3⟩]
      ∧ Typed 1 [⟨[5], [⟨[6, 7], 2⟩], 1, true, 3⟩]
      ∧ pack_plista 1 [⟨[5], [⟨[6, 7], 2⟩], 1, true, 3⟩] []
          = .ok [1, 0, 0, 0, 1, 0, 0, 0, 3, 0, 0, 0, 1, 5, 2, 6, 7]
      ∧ unpackRun grantAll ([1, 0, 0, 0, 1, 0, 0, 0, 3, 0, 0, 0, 1, 5, 2, 6, 7] ++ [9, 9, 9])
          = .ok (1, [⟨[5], [⟨[6, 7], 2⟩], 1, true, 3⟩], 17)
      ∧ ∃ buf, pack_plista 1 [⟨[5], [⟨[6, 7], 2⟩], 1, true, 3⟩] [] = .ok buf
        ∧ ∀ extra, (buf ++ extra).length ≤ INT_MAX →
            unpack_plista grantAll (buf ++ extra)
                = .ok (1, [⟨[5], [⟨[6, 7], 2⟩], 1, true, 3⟩])
              ∧ unpackRun grantAll (buf ++ extra)
                = .ok (1, [⟨[5], [⟨[6, 7], 2⟩], 1, true, 3⟩], buf.length) :=
  ⟨by decide, by decide, by decide, by decide,
   trailing_bytes_ignored grantAll 1 [⟨[5], [⟨[6, 7], 2⟩], 1, true, 3⟩] [] (by decide)
     (by decide) (by decide) (by decide)⟩

/-- Claim C14. Re-encoding: whenever `unpack_plista` succeeds on a buffer, the
count is not negative, the bytes it consumed are the layout of records `ws`,
and `pack_plista` applied to the decoded collection yields that layout with
each reviewed byte replaced by 0 if it is 0 and by 1 otherwise: byte for byte
the bytes consumed, except for a 1 where the buffer has a reviewed byte that
is neither 0 nor 1; if every reviewed byte is 0 or 1 it yields exactly the
bytes consumed. -/
theorem reencode (alloc : Allocator) (buf buf0 : List Byte) (outcount : Int)
    (data : List Traza) (p : Nat) (h : unpackRun alloc buf = .ok (outcount, data, p)) :
    0 ≤ outcount
      ∧ ∃ ws : List WireTrace, buf.take p = layout ws
        ∧ data = ws.map WireTrace.decoded
        ∧ pack_plista outcount data buf0 = .ok (layout (ws.map WireTrace.canonical))
        ∧ List.Forall₂ SameOrOne (layout (ws.map WireTrace.canonical)) (buf.take p)
        ∧ ((∀ w ∈ ws, w.reviewed = 0 ∨ w.reviewed = 1) →
            pack_plista outcount data buf0 = .ok (buf.take p)) := by
  obtain ⟨h0, _, _, _, hpb, hpi⟩ := unpackRun_sized alloc buf outcount data p h
  obtain ⟨ws, hw, hd, hc, htake⟩ := unpackRun_inv alloc buf outcount data p h
  have hfit : (layout ws).length ≤ INT_MAX := by
    rw [← htake, List.length_take]
    omega
  refine ⟨h0, ws, htake, hd, ?_, ?_, ?_⟩
  · rw [hc, hd]
    exact pack_decoded ws buf0 hw hfit
  · rw [htake]
    exact layout_canonical ws
  · intro hflag
    have hcan : ws.map WireTrace.canonical = ws := by
      conv_rhs => rw [← List.map_id ws]
      apply List.map_congr_left
      intro w hwm
      exact canonical_of_flag w (hflag w hwm)
    rw [hc, hd, pack_decoded ws buf0 hw hfit, hcan, htake]

/-- A buffer whose reviewed byte is 9, followed by two bytes the decoder does
not consume: re-encoded, the byte 9 has become 1. -/
theorem reencode_witness :
    unpackRun grantAll [1, 0, 0, 0, 2, 0, 0, 0, 5, 0, 0, 0, 9, 7, 8, 0, 3, 1, 2, 3, 44, 45]
        = .ok (1, [⟨[7, 8], [⟨[], 0⟩, ⟨[1, 2, 3], 3⟩], 2, true, 5⟩], 20)
      ∧ pack_plista 1 [⟨[7, 8], [⟨[], 0⟩, ⟨[1, 2, 3], 3⟩], 2, true, 5⟩] []
        = .ok [1, 0, 0, 0, 2, 0, 0, 0, 5, 0, 0, 0, 1, 7, 8, 0, 3, 1, 2, 3]
      ∧ (0 : Int) ≤ 1
      ∧ ∃ ws : List WireTrace,
          List.take 20 [1, 0, 0, 0, 2, 0, 0, 0, 5, 0, 0, 0, 9, 7, 8, 0, 3, 1, 2, 3, 44, 45]
            = layout ws
        ∧ ([⟨[7, 8], [⟨[], 0⟩, ⟨[1, 2, 3], 3⟩], 2, true, 5⟩] : List Traza)
            = ws.map WireTrace.decoded
        ∧ pack_plista 1 [⟨[7, 8], [⟨[], 0⟩, ⟨[1, 2, 3], 3⟩], 2, true, 5⟩] []
            = .ok (layout (ws.map WireTrace.canonical))
        ∧ List.Forall₂ SameOrOne (layout (ws.map WireTrace.canonical))
            (List.take 20
              [1, 0, 0, 0, 2, 0, 0, 0, 5, 0, 0, 0, 9, 7, 8, 0, 3, 1, 2, 3, 44, 45])
        ∧ ((∀ w ∈ ws, w.reviewed = 0 ∨ w.reviewed = 1) →
            pack_plista 1 [⟨[7, 8], [⟨[], 0⟩, ⟨[1, 2, 3], 3⟩], 2, true, 5⟩] []
              = .ok (List.take 20
                  [1, 0, 0, 0, 2, 0, 0, 0, 5, 0, 0, 0, 9, 7, 8, 0, 3, 1, 2, 3, 44, 45])) :=
  ⟨by decide, by decide,
   reencode grantAll [1, 0, 0, 0, 2, 0, 0, 0, 5, 0, 0, 0, 9, 7, 8, 0, 3, 1, 2, 3, 44, 45] [] 1
     [⟨[7, 8], [⟨[], 0⟩, ⟨[1, 2, 3], 3⟩], 2, true, 5⟩] 20 (by decide)⟩

end Mpi6

/-! # The struct datatype of mpi4 and mpi5 -/

namespace Mpi4

set_option autoImplicit false
set_option maxRecDepth 20000

/-- Claim C15 fails on the code. With `int` of 4 bytes and `double` of 8 bytes
aligned to 8 the members of `person_t` sit at offsets 0, 8 and 16, but the
blocks of `person_type` are at displacements 0, 4 and 12 (they would be the
offsets if `double` were aligned to 4).  The blocks cover bytes 0 to 91 of the
96 bytes of a person: `age`, `height` and `name[0]` to `name[8]` arrive, the
last 4 bytes of `name[9]` are never transferred.  In mpi4, received into a
zero-filled struct, `name[9] = 10.9` arrives as the bytes `CD CC CC CC 00 00 00
00`; in mpi5 the same happens to `name[9]` of both persons. -/
theorem descriptor_misses_members :
    offsetof 8 = [0, 8, 16] ∧ displacements = [0, 4, 12] ∧ offsetof 4 = displacements
      ∧ person_type = [(0, 4), (4, 8), (12, 80)] ∧ extent 8 = 96
      ∧ (List.range 96).filter (fun i => inMember i && !covered i) = [92, 93, 94, 95]
      ∧ age (transfer 8 1 buffer received) 0 = age buffer 0
      ∧ height (transfer 8 1 buffer received) 0 = height buffer 0
      ∧ (∀ j < 9, name (transfer 8 1 buffer received) 0 j = name buffer 0 j)
      ∧ name buffer 0 9 = [205, 204, 204, 204, 204, 204, 37, 64]
      ∧ name (transfer 8 1 buffer received) 0 9 = [205, 204, 204, 204, 0, 0, 0, 0]
      ∧ name buffer5 0 9 = [102, 102, 102, 102, 102, 230, 52, 64]
      ∧ name (transfer 8 2 buffer5 received5) 0 9 = [102, 102, 102, 102, 0, 0, 0, 0]
      ∧ name buffer5 1 9 = [205, 204, 204, 204, 204, 204, 37, 64]
      ∧ name (transfer 8 2 buffer5 received5) 1 9 = [205, 204, 204, 204, 0, 0, 0, 0] := by
  decide

end Mpi4
